import Mathlib

/-!
# Verification of the Sudoku generation and validation engine

A shallow embedding of the `SudokuGenerator` core (grid model, constraint
checker, solution generator, puzzle carver, solution counter/solver) together
with the difficulty configuration table and the leaderboard record store.

The mutable 9×9 number arrays of the original become values of type
`Grid := Fin 9 → Fin 9 → ℕ`; in-place mutation is modelled by explicit state
passing (`countAuxS`, `searchAuxS` return the final state of the buffer they
mutate), and the process-wide random source is modelled by explicit draw
parameters.  Backtracking recursion is expressed with a fuel parameter; fuel
`82` strictly exceeds the `81` possible empty cells, so the fuel-out branch is
unreachable from the public entry points.
-/

/-- A Sudoku grid: a 9×9 array of naturals, `0` meaning empty. -/
def Grid : Type := Fin 9 → Fin 9 → ℕ

instance : DecidableEq Grid := by unfold Grid; infer_instance

/-- The all-empty grid (`grid[i][j] = 0` for all cells). -/
def emptyGrid : Grid := fun _ _ => 0

/-- Writing value `v` into cell `(row, col)`: the array update `grid[row][col] = v`. -/
def setCell (g : Grid) (row col : Fin 9) (v : ℕ) : Grid :=
  fun r c => if r = row ∧ c = col then v else g r c

/-- All 81 cell coordinates in row-major order (the `positions` list built by
the carver, and the scan order of `findEmptyCell`). -/
def allCells : List (Fin 9 × Fin 9) :=
  (List.finRange 9).flatMap fun r => (List.finRange 9).map fun c => (r, c)

/-- `findEmptyCell`: the first cell in row-major order whose value is `0`. -/
def findEmptyCell (g : Grid) : Option (Fin 9 × Fin 9) :=
  allCells.find? fun p => g p.1 p.2 == 0

/-- `getBlockIndex(row, col) = floor(row/3)*3 + floor(col/3)`. -/
def getBlockIndex (row col : Fin 9) : ℕ := row.val / 3 * 3 + col.val / 3

/-- Two cells constrain each other iff they share a row, a column, or a 3×3
block.  This is the footprint scanned by `isValidPlacement`. -/
def sameUnit (p q : Fin 9 × Fin 9) : Prop :=
  p.1 = q.1 ∨ p.2 = q.2 ∨ getBlockIndex p.1 p.2 = getBlockIndex q.1 q.2

instance : DecidablePred (sameUnit p) := by
  intro q; unfold sameUnit; infer_instance

/-- `isValidPlacement(grid, row, col, num)`: scans the whole row, the whole
column and the whole 3×3 block (including the cell `(row, col)` itself) and
returns `false` iff `num` is found. -/
def isValidPlacement (g : Grid) (row col : Fin 9) (num : ℕ) : Bool :=
  ((List.finRange 9).all fun x => g row x != num) &&
  ((List.finRange 9).all fun x => g x col != num) &&
  ((List.finRange 3).all fun i => (List.finRange 3).all fun j =>
    g ⟨row.val / 3 * 3 + i.val, by have := row.isLt; have := i.isLt; omega⟩
      ⟨col.val / 3 * 3 + j.val, by have := col.isLt; have := j.isLt; omega⟩ != num)

/-- Number of empty (zero) cells of a grid. -/
def numEmpty (g : Grid) : ℕ :=
  (Finset.univ.filter fun p : Fin 9 × Fin 9 => g p.1 p.2 = 0).card

/-- Number of non-empty (non-zero) cells of a grid: the visible-cell count. -/
def nonZeroCount (g : Grid) : ℕ :=
  (Finset.univ.filter fun p : Fin 9 × Fin 9 => g p.1 p.2 ≠ 0).card

/-- A complete, constraint-satisfying solution grid: every cell holds a digit
1–9 that clashes with no other cell of its row, column or 3×3 block. -/
def validSolution (s : Grid) : Prop :=
  ∀ r c : Fin 9, (1 ≤ s r c ∧ s r c ≤ 9) ∧
    ∀ p : Fin 9 × Fin 9, sameUnit (r, c) p → (r, c) ≠ p → s p.1 p.2 ≠ s r c

instance : DecidablePred validSolution := by
  intro s; unfold validSolution; infer_instance

/-- Internal consistency of a (possibly partial) grid: every non-zero cell
holds a digit 1–9 not repeated elsewhere in its row, column or block. -/
def consistentG (g : Grid) : Prop :=
  ∀ r c : Fin 9, g r c ≠ 0 → (1 ≤ g r c ∧ g r c ≤ 9) ∧
    ∀ p : Fin 9 × Fin 9, sameUnit (r, c) p → (r, c) ≠ p → g p.1 p.2 ≠ g r c

instance : DecidablePred consistentG := by
  intro g; unfold consistentG; infer_instance

/-- `s` is a completion of the starting grid `g`: a valid full solution that
agrees with every preset (non-zero) cell of `g`. -/
def completes (g s : Grid) : Prop :=
  validSolution s ∧ ∀ r c, g r c ≠ 0 → s r c = g r c

/-- What the backtracking search guarantees about any grid it returns, with no
assumption on the starting grid `g`: the result extends `g`, is fully filled,
gives every search-filled cell a digit 1–9, and two distinct cells of a common
unit never agree unless both were preset in `g`. -/
def pseudoCompletes (g s : Grid) : Prop :=
  (∀ r c, g r c ≠ 0 → s r c = g r c) ∧
  (∀ r c, s r c ≠ 0) ∧
  (∀ r c, g r c = 0 → 1 ≤ s r c ∧ s r c ≤ 9) ∧
  (∀ p q : Fin 9 × Fin 9, sameUnit p q → p ≠ q →
    (g p.1 p.2 = 0 ∨ g q.1 q.2 = 0) → s p.1 p.2 ≠ s q.1 q.2)

/-- The candidate digits `1..9`, tried in ascending order by the solver and
the counter (`for (let num = 1; num <= 9; num++)`). -/
def nineL : List ℕ := [1, 2, 3, 4, 5, 6, 7, 8, 9]

/-- Pure value-level recurrence of `countSolutions(grid, count)`.  `fuel`
bounds the recursion depth (each recursive call fills one more empty cell, so
any fuel exceeding `numEmpty` behaves like the unbounded original). -/
def countAux : ℕ → Grid → ℕ → ℕ
  | 0, _, cnt => cnt
  | fuel + 1, g, cnt =>
    if 1 < cnt then cnt
    else
      match findEmptyCell g with
      | none => cnt + 1
      | some rc =>
        nineL.foldl
          (fun c' num =>
            if isValidPlacement g rc.1 rc.2 num then
              countAux fuel (setCell g rc.1 rc.2 num) c'
            else c') cnt

/-- State-threaded embedding of `countSolutions(grid, count)`: the original
mutates `grid` in place (`grid[row][col] = num; … ; grid[row][col] = 0`), so
the embedding returns the state of the grid at return time together with the
count.  The placement check reads the current state `st.1` exactly as the
source reads the shared `grid` object. -/
def countAuxS : ℕ → Grid → ℕ → Grid × ℕ
  | 0, g, cnt => (g, cnt)
  | fuel + 1, g, cnt =>
    if 1 < cnt then (g, cnt)
    else
      match findEmptyCell g with
      | none => (g, cnt + 1)
      | some rc =>
        nineL.foldl
          (fun st num =>
            if isValidPlacement st.1 rc.1 rc.2 num then
              (setCell (countAuxS fuel (setCell st.1 rc.1 rc.2 num) st.2).1 rc.1 rc.2 0,
               (countAuxS fuel (setCell st.1 rc.1 rc.2 num) st.2).2)
            else st) (g, cnt)

/-- `countSolutions(grid, count = 0 by default)`; fuel 82 strictly exceeds the
81 cells, so the fuel-out branch is unreachable. -/
def countSolutions (g : Grid) (cnt : ℕ) : ℕ := (countAuxS 82 g cnt).2

/-- One iteration of the counter's `for num` loop on accumulator `c'`. -/
def cStep (fuel : ℕ) (g : Grid) (rc : Fin 9 × Fin 9) (c' num : ℕ) : ℕ :=
  if isValidPlacement g rc.1 rc.2 num then countAux fuel (setCell g rc.1 rc.2 num) c' else c'

/-- The inductive specification of `countAux` at a given fuel: on consistent
grids with enough fuel it computes 0 / exactly-one / more-than-one according
to the actual set of completions. -/
def CountGood (fuel : ℕ) : Prop :=
  ∀ (g : Grid) (cnt : ℕ), consistentG g → numEmpty g < fuel →
    ((¬∃ s, completes g s) → countAux fuel g cnt = cnt) ∧
    ((∃! s, completes g s) → cnt ≤ 1 → countAux fuel g cnt = cnt + 1) ∧
    ((∃ s t, completes g s ∧ completes g t ∧ s ≠ t) → 1 < countAux fuel g cnt)

/-- Pure value-level recurrence shared by `solve` and `fillGrid`.  At the
`k`-th node (in order of invocation) the candidate digits are `σ k` — for
`solve` the constant ascending list `1..9`, for `fillGrid` a fresh shuffle of
it per node.  Returns the result together with the next unused invocation
index. -/
def searchAux : ℕ → (ℕ → List ℕ) → ℕ → Grid → Option Grid × ℕ
  | 0, _, k, _ => (none, k)
  | fuel + 1, σ, k, g =>
    match findEmptyCell g with
    | none => (some g, k)
    | some rc =>
      (σ k).foldl
        (fun st num =>
          match st.1 with
          | some _ => st
          | none =>
            if isValidPlacement g rc.1 rc.2 num then
              searchAux fuel σ st.2 (setCell g rc.1 rc.2 num)
            else st) (none, k + 1)

/-- One iteration of the search's `for num` loop. -/
def sStep (fuel : ℕ) (σ : ℕ → List ℕ) (g : Grid) (rc : Fin 9 × Fin 9)
    (st : Option Grid × ℕ) (num : ℕ) : Option Grid × ℕ :=
  match st.1 with
  | some _ => st
  | none =>
    if isValidPlacement g rc.1 rc.2 num then
      searchAux fuel σ st.2 (setCell g rc.1 rc.2 num)
    else st

/-- State-threaded embedding of the mutating search shared by `solve` and
`fillGrid`: the first component is the grid buffer at return time (the solved
grid on success, the restored input on failure), the second the returned
boolean, the third the next unused invocation index of the candidate source. -/
def searchAuxS : ℕ → (ℕ → List ℕ) → ℕ → Grid → Grid × Bool × ℕ
  | 0, _, k, g => (g, false, k)
  | fuel + 1, σ, k, g =>
    match findEmptyCell g with
    | none => (g, true, k)
    | some rc =>
      (σ k).foldl
        (fun st num =>
          if st.2.1 then st
          else if isValidPlacement st.1 rc.1 rc.2 num then
            if (searchAuxS fuel σ st.2.2 (setCell st.1 rc.1 rc.2 num)).2.1 then
              searchAuxS fuel σ st.2.2 (setCell st.1 rc.1 rc.2 num)
            else
              (setCell (searchAuxS fuel σ st.2.2 (setCell st.1 rc.1 rc.2 num)).1 rc.1 rc.2 0,
               false, (searchAuxS fuel σ st.2.2 (setCell st.1 rc.1 rc.2 num)).2.2)
          else st) (g, false, k + 1)

/-- One iteration of the mutating search's `for num` loop. -/
def sStepS (fuel : ℕ) (σ : ℕ → List ℕ) (rc : Fin 9 × Fin 9)
    (st : Grid × Bool × ℕ) (num : ℕ) : Grid × Bool × ℕ :=
  if st.2.1 then st
  else if isValidPlacement st.1 rc.1 rc.2 num then
    if (searchAuxS fuel σ st.2.2 (setCell st.1 rc.1 rc.2 num)).2.1 then
      searchAuxS fuel σ st.2.2 (setCell st.1 rc.1 rc.2 num)
    else
      (setCell (searchAuxS fuel σ st.2.2 (setCell st.1 rc.1 rc.2 num)).1 rc.1 rc.2 0,
       false, (searchAuxS fuel σ st.2.2 (setCell st.1 rc.1 rc.2 num)).2.2)
  else st

/-- `solvePuzzle(puzzle)`: copies the puzzle, runs the mutating `solve` on the
copy, and returns the solved copy, or `null` (here `none`) when the search
space is exhausted without a solution. -/
def solvePuzzle (p : Grid) : Option Grid :=
  if (searchAuxS 82 (fun _ => nineL) 0 p).2.1 then
    some (searchAuxS 82 (fun _ => nineL) 0 p).1
  else none

/-- JS array destructuring swap `[a[i], a[j]] = [a[j], a[i]]`, totalised:
out-of-range indices (which `Math.random` never produces) leave the list
unchanged. -/
def swapIdx {α : Type} (l : List α) (i j : ℕ) : List α :=
  if h : i < l.length ∧ j < l.length then
    (l.set i (l.get ⟨j, h.2⟩)).set j (l.get ⟨i, h.1⟩)
  else l

/-- Fisher–Yates shuffle: `for (let i = n-1; i > 0; i--) swap(i, draws i)`,
where `draws i = Math.floor(Math.random() * (i + 1))`. -/
def shuffleGo {α : Type} (draws : ℕ → ℕ) : ℕ → List α → List α
  | 0, l => l
  | i + 1, l => shuffleGo draws i (swapIdx l (i + 1) (draws (i + 1)))

/-- `shuffleArray(array)`, parameterised by the sequence of random draws. -/
def shuffleArray {α : Type} (l : List α) (draws : ℕ → ℕ) : List α :=
  shuffleGo draws (l.length - 1) l

/-- `generateSolution()`: builds the all-zero grid and runs `fillGrid` on it.
The process-wide random source is modelled by `σ`: the `k`-th invocation of
`shuffleArray([1..9])` uses the draws `σ k`.  The mutated grid buffer is
returned whether or not the recursion reports success, exactly as the source
ignores `fillGrid`'s boolean. -/
def generateSolution (σ : ℕ → ℕ → ℕ) : Grid :=
  (searchAuxS 82 (fun k => shuffleArray nineL (σ k)) 0 emptyGrid).1

/-- A concrete valid solution grid, witnessing that the empty grid is always
completable. -/
def baseSolution : Grid := fun r c => (3 * (r.val % 3) + r.val / 3 + c.val) % 9 + 1

/-- The four difficulty tiers. -/
inductive Difficulty
  | beginner
  | intermediate
  | hard
  | expert
deriving DecidableEq

/-- Inclusive visible-cell range. -/
structure VisibleCells where
  min : ℕ
  max : ℕ
deriving DecidableEq

/-- One entry of the static difficulty table. -/
structure DifficultyConfig where
  name : Difficulty
  visibleCells : VisibleCells
deriving DecidableEq

/-- The static `DIFFICULTY_CONFIGS` lookup table. -/
def DIFFICULTY_CONFIGS : Difficulty → DifficultyConfig
  | .beginner => ⟨.beginner, ⟨36, 40⟩⟩
  | .intermediate => ⟨.intermediate, ⟨32, 36⟩⟩
  | .hard => ⟨.hard, ⟨28, 32⟩⟩
  | .expert => ⟨.expert, ⟨24, 28⟩⟩

/-- `randomInRange(min, max) = Math.floor(Math.random() * (max - min + 1)) + min`,
with the float draw modelled by a natural `d` reduced into the window. -/
def randomInRange (lo hi : ℕ) (d : ℕ) : ℕ := lo + d % (hi - lo + 1)

/-- One iteration of the carving loop: tentatively clear the cell, count the
solutions on the shared buffer (the `countAuxS` grid component is the buffer
state after `countSolutions` returns), keep the cell cleared if the count is
exactly 1, restore the saved `temp` otherwise.  Iterations after the removal
target has been met pass the state through (the `break`). -/
def carveStep (ctr : ℕ) (st : Grid × ℕ) (rc : Fin 9 × Fin 9) : Grid × ℕ :=
  if ctr ≤ st.2 then st
  else
    if (countAuxS 82 (setCell st.1 rc.1 rc.2 0) 0).2 = 1 then
      ((countAuxS 82 (setCell st.1 rc.1 rc.2 0) 0).1, st.2 + 1)
    else
      (setCell (countAuxS 82 (setCell st.1 rc.1 rc.2 0) 0).1 rc.1 rc.2 (st.1 rc.1 rc.2), st.2)

/-- The carving loop over the shuffled coordinate list, starting from a copy
of the solution; returns the final puzzle with the number of removed cells. -/
def carve (solution : Grid) (cellsToShow : ℕ) (positions : List (Fin 9 × Fin 9)) :
    Grid × ℕ :=
  positions.foldl (carveStep (81 - cellsToShow)) (solution, 0)

/-- `createPuzzle(solution, difficulty)`: draws the visible-cell target inside
the difficulty's range (`d0` being the draw), shuffles all 81 coordinates
(`jdraws` being the Fisher–Yates draws) and carves. -/
def createPuzzle (solution : Grid) (difficulty : Difficulty) (d0 : ℕ)
    (jdraws : ℕ → ℕ) : Grid :=
  (carve solution
    (randomInRange (DIFFICULTY_CONFIGS difficulty).visibleCells.min
      (DIFFICULTY_CONFIGS difficulty).visibleCells.max d0)
    (shuffleArray allCells jdraws)).1

/-- The deliberately inconsistent test grid: 5 at `(0,0)` and `(0,1)`, empty
everywhere else. -/
def conflictGrid : Grid := fun r c =>
  if r = 0 ∧ c = 0 then 5 else if r = 0 ∧ c = 1 then 5 else 0

/-- Row coordinate of the `i`-th cell (row-major) of block `b`. -/
def blkR (b i : Fin 9) : Fin 9 :=
  ⟨b.val / 3 * 3 + i.val / 3, by have := b.isLt; have := i.isLt; omega⟩

/-- Column coordinate of the `i`-th cell (row-major) of block `b`. -/
def blkC (b i : Fin 9) : Fin 9 :=
  ⟨b.val % 3 * 3 + i.val % 3, by have := b.isLt; have := i.isLt; omega⟩

/-- A leaderboard entry. -/
structure GameRecord where
  id : String
  playerName : String
  score : ℤ
  difficulty : Difficulty
  time : ℕ
  date : ℕ
  hintsUsed : ℕ
  errors : ℕ

def MAX_RECORDS_PER_DIFFICULTY : ℕ := 3

/-- `getRecordsByDifficulty`: the records of one difficulty, sorted descending
by score (JS `sort((a, b) => b.score - a.score)`, a stable sort), capped at 3. -/
def getRecordsByDifficulty (records : List GameRecord) (d : Difficulty) :
    List GameRecord :=
  ((records.filter fun r => decide (r.difficulty = d)).mergeSort
    fun a b => decide (b.score ≤ a.score)).take MAX_RECORDS_PER_DIFFICULTY

/-- `addRecord`: append the new record (with fresh `id` and `date`, modelled
as parameters) and rebuild the store as the per-difficulty top lists. -/
def addRecord (records : List GameRecord) (entry : GameRecord) (newId : String)
    (now : ℕ) : List GameRecord :=
  getRecordsByDifficulty (records ++ [{ entry with id := newId, date := now }]) .beginner
    ++ getRecordsByDifficulty (records ++ [{ entry with id := newId, date := now }]) .intermediate
    ++ getRecordsByDifficulty (records ++ [{ entry with id := newId, date := now }]) .hard
    ++ getRecordsByDifficulty (records ++ [{ entry with id := newId, date := now }]) .expert

/-- Heap-level read: each natural number is a reference to one mutable grid
object in the store. -/
def readRef (store : List Grid) (i : ℕ) : Grid := store.getD i emptyGrid

/-- One heap-level carving iteration: all reads and writes go through the
puzzle's reference `pref` (the buffer left behind by the in-place
`countSolutions` call included). -/
def carveStepH (ctr pref : ℕ) (st : List Grid × ℕ) (rc : Fin 9 × Fin 9) :
    List Grid × ℕ :=
  if ctr ≤ st.2 then st
  else
    if (countAuxS 82 (setCell (readRef st.1 pref) rc.1 rc.2 0) 0).2 = 1 then
      (st.1.set pref (countAuxS 82 (setCell (readRef st.1 pref) rc.1 rc.2 0) 0).1,
       st.2 + 1)
    else
      (st.1.set pref (setCell (countAuxS 82 (setCell (readRef st.1 pref) rc.1 rc.2 0) 0).1
        rc.1 rc.2 (readRef st.1 pref rc.1 rc.2)), st.2)

/-- `createPuzzle` at the heap level: the caller passes the reference `sref`
of its solution array; `solution.map(row => [...row])` allocates the fresh
reference `store.length` holding a deep copy, and every mutation of the
carving loop targets that copy.  Returns the final store and the puzzle's
reference. -/
def createPuzzleH (store : List Grid) (sref : ℕ) (difficulty : Difficulty)
    (d0 : ℕ) (jdraws : ℕ → ℕ) : List Grid × ℕ :=
  (((shuffleArray allCells jdraws).foldl
    (carveStepH (81 - randomInRange (DIFFICULTY_CONFIGS difficulty).visibleCells.min
      (DIFFICULTY_CONFIGS difficulty).visibleCells.max d0) store.length)
    (store ++ [readRef store sref], 0)).1, store.length)

/-- `solvePuzzle` at the heap level: allocates the copy
(`puzzle.map(row => [...row])`), runs the mutating `solve` on it, and returns
the copy's reference on success. -/
def solvePuzzleH (store : List Grid) (pzref : ℕ) : List Grid × Option ℕ :=
  ((store ++ [readRef store pzref]).set store.length
      (searchAuxS 82 (fun _ => nineL) 0 (readRef store pzref)).1,
   if (searchAuxS 82 (fun _ => nineL) 0 (readRef store pzref)).2.1 then
     some store.length
   else none)

/-- The grid used to refute C3 as stated: a 5 pre-placed at `(0,0)`, all other
cells empty. -/
def g5 : Grid := fun r c => if r = 0 ∧ c = 0 then 5 else 0

theorem setCell_same (g : Grid) (row col : Fin 9) (v : ℕ) :
    setCell g row col v row col = v := by
  simp [setCell]

theorem setCell_other (g : Grid) (row col : Fin 9) (v : ℕ) (r c : Fin 9)
    (h : ¬(r = row ∧ c = col)) : setCell g row col v r c = g r c := by
  simp [setCell, h]

theorem setCell_setCell (g : Grid) (row col : Fin 9) (v w : ℕ) :
    setCell (setCell g row col v) row col w = setCell g row col w := by
  funext r c
  by_cases h : r = row ∧ c = col <;> simp [setCell, h]

theorem setCell_eq_self (g : Grid) (row col : Fin 9) (v : ℕ) (h : g row col = v) :
    setCell g row col v = g := by
  funext r c
  by_cases hrc : r = row ∧ c = col
  · obtain ⟨h1, h2⟩ := hrc; subst h1; subst h2; simp [setCell, h]
  · simp [setCell, hrc]

/-- Undoing a tentative placement restores the original grid. -/
theorem setCell_cancel (g : Grid) (row col : Fin 9) (v : ℕ) (h : g row col = 0) :
    setCell (setCell g row col v) row col 0 = g := by
  rw [setCell_setCell]
  exact setCell_eq_self g row col 0 h

theorem mem_allCells (p : Fin 9 × Fin 9) : p ∈ allCells := by
  simp [allCells]

theorem allCells_nodup : allCells.Nodup := by
  decide

theorem allCells_length : allCells.length = 81 := by
  decide

theorem findEmptyCell_some {g : Grid} {p : Fin 9 × Fin 9}
    (h : findEmptyCell g = some p) : g p.1 p.2 = 0 := by
  have := List.find?_some h
  simpa using this

theorem findEmptyCell_none {g : Grid} :
    findEmptyCell g = none ↔ ∀ r c, g r c ≠ 0 := by
  unfold findEmptyCell
  rw [List.find?_eq_none]
  constructor
  · intro h r c
    have := h (r, c) (mem_allCells _)
    simpa using this
  · intro h p _
    simpa using h p.1 p.2

theorem sameUnit_symm {p q : Fin 9 × Fin 9} (h : sameUnit p q) : sameUnit q p := by
  rcases h with h | h | h
  · exact Or.inl h.symm
  · exact Or.inr (Or.inl h.symm)
  · exact Or.inr (Or.inr h.symm)

theorem isValidPlacement_iff (g : Grid) (row col : Fin 9) (num : ℕ) :
    isValidPlacement g row col num = true ↔
      ∀ p : Fin 9 × Fin 9, sameUnit (row, col) p → g p.1 p.2 ≠ num := by
  simp only [isValidPlacement, Bool.and_eq_true, List.all_eq_true, List.mem_finRange,
    true_implies, bne_iff_ne, ne_eq]
  constructor
  · rintro ⟨⟨hrow, hcol⟩, hblk⟩ p hp
    rcases hp with h1 | h2 | h3
    · have h1' : row = p.1 := h1
      rw [← h1']
      exact hrow p.2
    · have h2' : col = p.2 := h2
      rw [← h2']
      exact hcol p.1
    · have h3' : row.val / 3 * 3 + col.val / 3 = p.1.val / 3 * 3 + p.2.val / 3 := h3
      have hr9 := row.isLt
      have hc9 := col.isLt
      have hp1 := p.1.isLt
      have hp2 := p.2.isLt
      have hr' : row.val / 3 * 3 ≤ p.1.val ∧ p.1.val < row.val / 3 * 3 + 3 := by omega
      have hc' : col.val / 3 * 3 ≤ p.2.val ∧ p.2.val < col.val / 3 * 3 + 3 := by omega
      have hb := hblk ⟨p.1.val - row.val / 3 * 3, by omega⟩ ⟨p.2.val - col.val / 3 * 3, by omega⟩
      have e1 : (⟨row.val / 3 * 3 + (p.1.val - row.val / 3 * 3), by omega⟩ : Fin 9) = p.1 := by
        apply Fin.ext
        show row.val / 3 * 3 + (p.1.val - row.val / 3 * 3) = p.1.val
        omega
      have e2 : (⟨col.val / 3 * 3 + (p.2.val - col.val / 3 * 3), by omega⟩ : Fin 9) = p.2 := by
        apply Fin.ext
        show col.val / 3 * 3 + (p.2.val - col.val / 3 * 3) = p.2.val
        omega
      rw [← e1, ← e2]
      exact hb
  · intro h
    refine ⟨⟨fun x => h (row, x) (Or.inl rfl), fun x => h (x, col) (Or.inr (Or.inl rfl))⟩, ?_⟩
    intro i j
    exact h (⟨row.val / 3 * 3 + i.val, by have := row.isLt; have := i.isLt; omega⟩,
             ⟨col.val / 3 * 3 + j.val, by have := col.isLt; have := j.isLt; omega⟩)
      (Or.inr (Or.inr (by
        show row.val / 3 * 3 + col.val / 3
            = (row.val / 3 * 3 + i.val) / 3 * 3 + (col.val / 3 * 3 + j.val) / 3
        have := row.isLt; have := col.isLt; have := i.isLt; have := j.isLt
        omega)))

theorem numEmpty_add_nonZeroCount (g : Grid) : numEmpty g + nonZeroCount g = 81 := by
  classical
  unfold numEmpty nonZeroCount
  rw [Finset.filter_card_add_filter_neg_card_eq_card]
  simp

theorem numEmpty_le (g : Grid) : numEmpty g ≤ 81 := by
  have h := numEmpty_add_nonZeroCount g
  omega

theorem numEmpty_setCell {g : Grid} {row col : Fin 9} {v : ℕ}
    (h0 : g row col = 0) (hv : v ≠ 0) :
    numEmpty g = numEmpty (setCell g row col v) + 1 := by
  classical
  unfold numEmpty
  have hset : (Finset.univ.filter fun p : Fin 9 × Fin 9 => setCell g row col v p.1 p.2 = 0)
      = (Finset.univ.filter fun p : Fin 9 × Fin 9 => g p.1 p.2 = 0).erase (row, col) := by
    ext p
    by_cases hp : p.1 = row ∧ p.2 = col
    · have hpe : p = (row, col) := Prod.ext hp.1 hp.2
      simp [hpe, setCell_same, hv]
    · have : setCell g row col v p.1 p.2 = g p.1 p.2 := setCell_other _ _ _ _ _ _ hp
      have hne : p ≠ (row, col) := by
        intro he; exact hp ⟨by rw [he], by rw [he]⟩
      simp [this, Finset.mem_erase, hne]
  rw [hset]
  have hmem : (row, col) ∈ (Finset.univ.filter fun p : Fin 9 × Fin 9 => g p.1 p.2 = 0) := by
    simp [h0]
  rw [Finset.card_erase_of_mem hmem]
  have : 0 < (Finset.univ.filter fun p : Fin 9 × Fin 9 => g p.1 p.2 = 0).card :=
    Finset.card_pos.mpr ⟨(row, col), hmem⟩
  omega

theorem nonZeroCount_setCell_zero {g : Grid} {row col : Fin 9}
    (h : g row col ≠ 0) :
    nonZeroCount (setCell g row col 0) + 1 = nonZeroCount g := by
  classical
  have hs : setCell (setCell g row col 0) row col (g row col) = g := by
    rw [setCell_setCell]
    exact setCell_eq_self _ _ _ _ rfl
  have h1 : numEmpty (setCell g row col 0) = numEmpty g + 1 := by
    conv_rhs => rw [← hs]
    exact numEmpty_setCell (setCell_same _ _ _ _) h
  have h2 := numEmpty_add_nonZeroCount g
  have h3 := numEmpty_add_nonZeroCount (setCell g row col 0)
  omega

theorem validSolution_nonzero {s : Grid} (hs : validSolution s) (r c : Fin 9) :
    s r c ≠ 0 := by
  have := (hs r c).1.1
  omega

theorem validSolution_consistent {s : Grid} (hs : validSolution s) : consistentG s :=
  fun r c _ => hs r c

/-- A grid that agrees with a valid solution on all its non-zero cells is
internally consistent. -/
theorem subgrid_consistent {g s : Grid}
    (hsub : ∀ r c, g r c ≠ 0 → g r c = s r c) (hs : validSolution s) :
    consistentG g := by
  intro r c hrc
  rw [hsub r c hrc]
  refine ⟨(hs r c).1, ?_⟩
  intro p hp hne hval
  by_cases hz : g p.1 p.2 = 0
  · rw [hz] at hval
    exact validSolution_nonzero hs r c hval.symm
  · rw [hsub p.1 p.2 hz] at hval
    exact (hs r c).2 p hp hne hval

/-- The unique completion of a full valid grid is itself. -/
theorem completes_full_unique {s u : Grid} (hs : validSolution s)
    (hu : completes s u) : u = s := by
  funext r c
  exact hu.2 r c (validSolution_nonzero hs r c)

/-- Filling an empty cell with the completion's value keeps it a completion,
and that value passes the placement check. -/
theorem completes_step_forward {g s : Grid} {r c : Fin 9}
    (hc : completes g s) (h0 : g r c = 0) :
    isValidPlacement g r c (s r c) = true ∧ completes (setCell g r c (s r c)) s := by
  obtain ⟨hs, hext⟩ := hc
  have hnz : s r c ≠ 0 := validSolution_nonzero hs r c
  constructor
  · rw [isValidPlacement_iff]
    intro p hp hval
    by_cases hz : g p.1 p.2 = 0
    · rw [hz] at hval
      exact hnz hval.symm
    · have hpne : (r, c) ≠ p := by
        intro he
        rw [← he] at hz
        exact hz h0
      rw [← hext p.1 p.2 hz] at hval
      exact (hs r c).2 p hp hpne hval
  · refine ⟨hs, ?_⟩
    intro x y hxy
    by_cases hxc : x = r ∧ y = c
    · obtain ⟨hx, hy⟩ := hxc; subst hx; subst hy
      rw [setCell_same]
    · rw [setCell_other _ _ _ _ _ _ hxc] at hxy ⊢
      exact hext x y hxy

/-- A completion of the grid with an extra placed digit completes the original
grid and assigns exactly that digit to the filled cell. -/
theorem completes_step_backward {g s : Grid} {r c : Fin 9} {v : ℕ}
    (hv : v ≠ 0) (h0 : g r c = 0) (hc : completes (setCell g r c v) s) :
    completes g s ∧ s r c = v := by
  obtain ⟨hs, hext⟩ := hc
  have hrc : s r c = v := by
    have := hext r c (by rw [setCell_same]; exact hv)
    rwa [setCell_same] at this
  refine ⟨⟨hs, ?_⟩, hrc⟩
  intro x y hxy
  have hxc : ¬(x = r ∧ y = c) := by
    rintro ⟨hx, hy⟩; subst hx; subst hy
    exact hxy h0
  have := hext x y (by rw [setCell_other _ _ _ _ _ _ hxc]; exact hxy)
  rwa [setCell_other _ _ _ _ _ _ hxc] at this

/-- Placing a digit that passes the placement check preserves consistency. -/
theorem consistent_setCell {g : Grid} {r c : Fin 9} {num : ℕ}
    (hg : consistentG g) (h0 : g r c = 0) (h1 : 1 ≤ num) (h9 : num ≤ 9)
    (hv : isValidPlacement g r c num = true) :
    consistentG (setCell g r c num) := by
  rw [isValidPlacement_iff] at hv
  intro x y hxy
  by_cases hxc : x = r ∧ y = c
  · obtain ⟨hx, hy⟩ := hxc; subst hx; subst hy
    rw [setCell_same]
    refine ⟨⟨h1, h9⟩, ?_⟩
    intro p hp hne
    have hpc : ¬(p.1 = x ∧ p.2 = y) := by
      rintro ⟨ha, hb⟩
      exact hne (Prod.ext ha.symm hb.symm)
    rw [setCell_other _ _ _ _ _ _ hpc]
    exact hv p hp
  · rw [setCell_other _ _ _ _ _ _ hxc] at hxy ⊢
    refine ⟨(hg x y hxy).1, ?_⟩
    intro p hp hne
    by_cases hpc : p.1 = r ∧ p.2 = c
    · obtain ⟨ha, hb⟩ := hpc
      have hpe : p = (r, c) := Prod.ext ha hb
      rw [hpe, setCell_same]
      have := hv (x, y) (sameUnit_symm (by rwa [hpe] at hp))
      exact fun he => this he.symm
    · rw [setCell_other _ _ _ _ _ _ hpc]
      exact (hg x y hxy).2 p hp hne

theorem pseudoCompletes_refl_full {g : Grid} (hfull : ∀ r c, g r c ≠ 0) :
    pseudoCompletes g g := by
  refine ⟨fun _ _ _ => rfl, hfull, ?_, ?_⟩
  · intro r c h0
    exact absurd h0 (hfull r c)
  · intro p q _ _ hz
    rcases hz with hz | hz
    · exact absurd hz (hfull p.1 p.2)
    · exact absurd hz (hfull q.1 q.2)

theorem pseudoCompletes_step {g s : Grid} {r c : Fin 9} {num : ℕ}
    (h0 : g r c = 0) (h1 : 1 ≤ num) (h9 : num ≤ 9)
    (hv : isValidPlacement g r c num = true)
    (hp : pseudoCompletes (setCell g r c num) s) :
    pseudoCompletes g s := by
  rw [isValidPlacement_iff] at hv
  obtain ⟨hext, hfull, hrange, hpair⟩ := hp
  have hnum : num ≠ 0 := by omega
  have hsrc : s r c = num := by
    have := hext r c (by rw [setCell_same]; exact hnum)
    rwa [setCell_same] at this
  refine ⟨?_, hfull, ?_, ?_⟩
  · intro x y hxy
    have hxc : ¬(x = r ∧ y = c) := by
      rintro ⟨hx, hy⟩; subst hx; subst hy
      exact hxy h0
    have := hext x y (by rw [setCell_other _ _ _ _ _ _ hxc]; exact hxy)
    rwa [setCell_other _ _ _ _ _ _ hxc] at this
  · intro x y hz
    by_cases hxc : x = r ∧ y = c
    · obtain ⟨hx, hy⟩ := hxc; subst hx; subst hy
      rw [hsrc]
      exact ⟨h1, h9⟩
    · exact hrange x y (by rw [setCell_other _ _ _ _ _ _ hxc]; exact hz)
  · intro p q hsu hne hz
    by_cases hz' : setCell g r c num p.1 p.2 = 0 ∨ setCell g r c num q.1 q.2 = 0
    · exact hpair p q hsu hne hz'
    · push_neg at hz'
      obtain ⟨hzp, hzq⟩ := hz'
      rcases hz with hz | hz
      · have hpe : p = (r, c) := by
          by_contra hc'
          have hpc : ¬(p.1 = r ∧ p.2 = c) := by
            rintro ⟨ha, hb⟩; exact hc' (Prod.ext ha hb)
          rw [setCell_other _ _ _ _ _ _ hpc] at hzp
          exact hzp hz
        have hqc : ¬(q.1 = r ∧ q.2 = c) := by
          rintro ⟨ha, hb⟩
          exact hne (by rw [hpe]; exact (Prod.ext ha hb).symm)
        have hsq : s q.1 q.2 = g q.1 q.2 := by
          have := hext q.1 q.2 hzq
          rwa [setCell_other _ _ _ _ _ _ hqc] at this
        rw [setCell_other _ _ _ _ _ _ hqc] at hzq
        have hsu' : sameUnit (r, c) q := by rwa [hpe] at hsu
        have : g q.1 q.2 ≠ num := hv q hsu'
        rw [hpe]
        show s r c ≠ s q.1 q.2
        rw [hsrc, hsq]
        exact fun he => this he.symm
      · have hqe : q = (r, c) := by
          by_contra hc'
          have hqc : ¬(q.1 = r ∧ q.2 = c) := by
            rintro ⟨ha, hb⟩; exact hc' (Prod.ext ha hb)
          rw [setCell_other _ _ _ _ _ _ hqc] at hzq
          exact hzq hz
        have hpc : ¬(p.1 = r ∧ p.2 = c) := by
          rintro ⟨ha, hb⟩
          exact hne (by rw [hqe]; exact Prod.ext ha hb)
        have hsp : s p.1 p.2 = g p.1 p.2 := by
          have := hext p.1 p.2 hzp
          rwa [setCell_other _ _ _ _ _ _ hpc] at this
        rw [setCell_other _ _ _ _ _ _ hpc] at hzp
        have hsu' : sameUnit (r, c) p := sameUnit_symm (by rwa [hqe] at hsu)
        have : g p.1 p.2 ≠ num := hv p hsu'
        rw [hqe]
        show s p.1 p.2 ≠ s r c
        rw [hsrc, hsp]
        exact this

/-- On a consistent starting grid, a pseudo-completion is a genuine completion. -/
theorem pseudoCompletes_completes {g s : Grid} (hg : consistentG g)
    (hp : pseudoCompletes g s) : completes g s := by
  obtain ⟨hext, hfull, hrange, hpair⟩ := hp
  refine ⟨?_, hext⟩
  intro r c
  constructor
  · by_cases hz : g r c = 0
    · exact hrange r c hz
    · rw [hext r c hz]
      exact (hg r c hz).1
  · intro p hp' hne
    by_cases hz : g p.1 p.2 = 0 ∨ g r c = 0
    · exact hpair p (r, c) (sameUnit_symm hp') (fun he => hne he.symm) hz
    · push_neg at hz
      obtain ⟨hzp, hzr⟩ := hz
      rw [hext p.1 p.2 hzp, hext r c hzr]
      exact (hg r c hzr).2 p hp' hne

/-- `countSolutions` restores every cell it fills before returning: the grid
state at return equals the grid state at call, and the returned count obeys
the pure recurrence `countAux`. -/
theorem countAuxS_eq : ∀ (fuel : ℕ) (g : Grid) (cnt : ℕ),
    countAuxS fuel g cnt = (g, countAux fuel g cnt) := by
  intro fuel
  induction fuel with
  | zero => intro g cnt; rfl
  | succ fuel ih =>
    intro g cnt
    rw [countAuxS, countAux]
    by_cases hcnt : 1 < cnt
    · rw [if_pos hcnt, if_pos hcnt]
    · rw [if_neg hcnt, if_neg hcnt]
      cases hfind : findEmptyCell g with
      | none => rfl
      | some rc =>
        have h0 : g rc.1 rc.2 = 0 := findEmptyCell_some hfind
        have hfold : ∀ (nums : List ℕ) (c₀ : ℕ),
            nums.foldl
              (fun st num =>
                if isValidPlacement st.1 rc.1 rc.2 num then
                  (setCell (countAuxS fuel (setCell st.1 rc.1 rc.2 num) st.2).1 rc.1 rc.2 0,
                   (countAuxS fuel (setCell st.1 rc.1 rc.2 num) st.2).2)
                else st) (g, c₀)
            = (g, nums.foldl
                (fun c' num =>
                  if isValidPlacement g rc.1 rc.2 num then
                    countAux fuel (setCell g rc.1 rc.2 num) c'
                  else c') c₀) := by
          intro nums
          induction nums with
          | nil => intro c₀; rfl
          | cons num rest ihl =>
            intro c₀
            simp only [List.foldl_cons]
            by_cases hv : isValidPlacement g rc.1 rc.2 num = true
            · rw [if_pos hv, if_pos hv, ih, setCell_cancel _ _ _ _ h0]
              exact ihl _
            · rw [if_neg hv, if_neg hv]
              exact ihl _
        exact hfold nineL cnt

theorem countSolutions_eq (g : Grid) (cnt : ℕ) :
    countSolutions g cnt = countAux 82 g cnt := by
  rw [countSolutions, countAuxS_eq]

/-- The entry short-circuit: a call whose incoming counter already exceeds 1
returns it unchanged (`if (count > 1) return count`). -/
theorem countAux_entry (fuel : ℕ) (g : Grid) {cnt : ℕ} (h : 1 < cnt) :
    countAux fuel g cnt = cnt := by
  cases fuel with
  | zero => rfl
  | succ fuel => rw [countAux, if_pos h]

/-- The counter never decreases. -/
theorem countAux_mono : ∀ (fuel : ℕ) (g : Grid) (cnt : ℕ), cnt ≤ countAux fuel g cnt := by
  intro fuel
  induction fuel with
  | zero => intro g cnt; exact le_refl _
  | succ fuel ih =>
    intro g cnt
    rw [countAux]
    by_cases hcnt : 1 < cnt
    · rw [if_pos hcnt]
    · rw [if_neg hcnt]
      cases hfind : findEmptyCell g with
      | none => exact Nat.le_succ _
      | some rc =>
        have hfold : ∀ (nums : List ℕ) (c₀ : ℕ),
            c₀ ≤ nums.foldl
              (fun c' num =>
                if isValidPlacement g rc.1 rc.2 num then
                  countAux fuel (setCell g rc.1 rc.2 num) c'
                else c') c₀ := by
          intro nums
          induction nums with
          | nil => intro c₀; exact le_refl _
          | cons num rest ihl =>
            intro c₀
            simp only [List.foldl_cons]
            by_cases hv : isValidPlacement g rc.1 rc.2 num = true
            · rw [if_pos hv]
              exact le_trans (ih _ _) (ihl _)
            · rw [if_neg hv]
              exact ihl _
        exact hfold nineL cnt

theorem mem_nineL {n : ℕ} : n ∈ nineL ↔ 1 ≤ n ∧ n ≤ 9 := by
  simp [nineL]
  omega

theorem nineL_nodup : nineL.Nodup := by decide

theorem countAux_some {fuel : ℕ} {g : Grid} {rc : Fin 9 × Fin 9} {cnt : ℕ}
    (hc : ¬1 < cnt) (hfind : findEmptyCell g = some rc) :
    countAux (fuel + 1) g cnt = nineL.foldl (cStep fuel g rc) cnt := by
  rw [countAux, if_neg hc, hfind]
  rfl

theorem cStep_pos {fuel : ℕ} {g : Grid} {rc : Fin 9 × Fin 9} {c' num : ℕ}
    (hv : isValidPlacement g rc.1 rc.2 num = true) :
    cStep fuel g rc c' num = countAux fuel (setCell g rc.1 rc.2 num) c' := if_pos hv

theorem cStep_neg {fuel : ℕ} {g : Grid} {rc : Fin 9 × Fin 9} {c' num : ℕ}
    (hv : ¬isValidPlacement g rc.1 rc.2 num = true) :
    cStep fuel g rc c' num = c' := if_neg hv

theorem cStep_mono (fuel : ℕ) (g : Grid) (rc : Fin 9 × Fin 9) (c' num : ℕ) :
    c' ≤ cStep fuel g rc c' num := by
  by_cases hv : isValidPlacement g rc.1 rc.2 num = true
  · rw [cStep_pos hv]; exact countAux_mono _ _ _
  · rw [cStep_neg hv]

theorem cFold_entry (fuel : ℕ) (g : Grid) (rc : Fin 9 × Fin 9) :
    ∀ (nums : List ℕ) (c₀ : ℕ), 1 < c₀ → nums.foldl (cStep fuel g rc) c₀ = c₀ := by
  intro nums
  induction nums with
  | nil => intro c₀ _; rfl
  | cons num rest ihl =>
    intro c₀ hc₀
    rw [List.foldl_cons]
    have hstep : cStep fuel g rc c₀ num = c₀ := by
      by_cases hv : isValidPlacement g rc.1 rc.2 num = true
      · rw [cStep_pos hv]; exact countAux_entry _ _ hc₀
      · exact cStep_neg hv
    rw [hstep]
    exact ihl c₀ hc₀

theorem cFold_mono (fuel : ℕ) (g : Grid) (rc : Fin 9 × Fin 9) :
    ∀ (nums : List ℕ) (c₀ : ℕ), c₀ ≤ nums.foldl (cStep fuel g rc) c₀ := by
  intro nums
  induction nums with
  | nil => intro c₀; exact le_refl _
  | cons num rest ihl =>
    intro c₀
    rw [List.foldl_cons]
    exact le_trans (cStep_mono _ _ _ _ _) (ihl _)

/-- Completions of the grid with `num` placed at the empty cell `rc` are
exactly the completions of the original grid whose value at `rc` is `num`. -/
theorem branch_completes_iff {g : Grid} {rc : Fin 9 × Fin 9} {num : ℕ}
    (h0 : g rc.1 rc.2 = 0) (h1 : 1 ≤ num) (s : Grid) :
    completes (setCell g rc.1 rc.2 num) s ↔ completes g s ∧ s rc.1 rc.2 = num := by
  constructor
  · intro hc
    exact completes_step_backward (by omega) h0 hc
  · rintro ⟨hc, he⟩
    have := (completes_step_forward hc h0).2
    rwa [he] at this

theorem numEmpty_branch_lt {g : Grid} {rc : Fin 9 × Fin 9} {num fuel : ℕ}
    (h0 : g rc.1 rc.2 = 0) (hnum : num ≠ 0) (hfu : numEmpty g ≤ fuel) :
    numEmpty (setCell g rc.1 rc.2 num) < fuel := by
  have := numEmpty_setCell h0 hnum
  omega

/-- Loop segments none of whose candidate digits admits a completion leave the
counter unchanged. -/
theorem cFold_none {fuel : ℕ} {g : Grid} {rc : Fin 9 × Fin 9}
    (H : CountGood fuel) (hg : consistentG g) (h0 : g rc.1 rc.2 = 0)
    (hfu : numEmpty g ≤ fuel) :
    ∀ (nums : List ℕ), (∀ num ∈ nums, 1 ≤ num ∧ num ≤ 9) →
      (∀ num ∈ nums, ¬∃ s, completes g s ∧ s rc.1 rc.2 = num) →
      ∀ c₀, nums.foldl (cStep fuel g rc) c₀ = c₀ := by
  intro nums
  induction nums with
  | nil => intro _ _ c₀; rfl
  | cons num rest ihl =>
    intro hrange hno c₀
    rw [List.foldl_cons]
    have hstep : cStep fuel g rc c₀ num = c₀ := by
      by_cases hv : isValidPlacement g rc.1 rc.2 num = true
      · rw [cStep_pos hv]
        have h1 := (hrange num (List.mem_cons_self _ _)).1
        have h9 := (hrange num (List.mem_cons_self _ _)).2
        refine (H (setCell g rc.1 rc.2 num) c₀
          (consistent_setCell hg h0 h1 h9 hv)
          (numEmpty_branch_lt h0 (by omega) hfu)).1 ?_
        rintro ⟨s, hs⟩
        exact hno num (List.mem_cons_self _ _) ⟨s, (branch_completes_iff h0 h1 s).mp hs⟩
      · exact cStep_neg hv
    rw [hstep]
    exact ihl (fun n hn => hrange n (List.mem_cons_of_mem _ hn))
      (fun n hn => hno n (List.mem_cons_of_mem _ hn)) c₀

/-- A single counter call on a consistent grid that has at least one
completion strictly increases a not-yet-saturated counter. -/
theorem countAux_lower {fuel : ℕ} {g' : Grid} (H : CountGood fuel)
    (hg' : consistentG g') (hflt : numEmpty g' < fuel)
    (hex : ∃ w, completes g' w) {c₀ : ℕ} (hc₀ : c₀ ≤ 1) :
    c₀ + 1 ≤ countAux fuel g' c₀ := by
  classical
  obtain ⟨w, hw⟩ := hex
  by_cases htwo : ∃ a b, completes g' a ∧ completes g' b ∧ a ≠ b
  · have := (H g' c₀ hg' hflt).2.2 htwo
    omega
  · have huniq : ∃! a, completes g' a := by
      refine ⟨w, hw, ?_⟩
      intro b hb
      by_contra hne
      exact htwo ⟨b, w, hb, hw, hne⟩
    rw [(H g' c₀ hg' hflt).2.1 huniq hc₀]

/-- When the starting grid has exactly one completion and the candidate
segment is duplicate-free and contains that completion's digit at the empty
cell, the loop increments the counter exactly once. -/
theorem cFold_unique {fuel : ℕ} {g : Grid} {rc : Fin 9 × Fin 9}
    (H : CountGood fuel) (hg : consistentG g) (h0 : g rc.1 rc.2 = 0)
    (hfu : numEmpty g ≤ fuel) (s : Grid) (hs : completes g s)
    (hu : ∀ t, completes g t → t = s) :
    ∀ (nums : List ℕ), (∀ num ∈ nums, 1 ≤ num ∧ num ≤ 9) → nums.Nodup →
      s rc.1 rc.2 ∈ nums → ∀ c₀, c₀ ≤ 1 →
      nums.foldl (cStep fuel g rc) c₀ = c₀ + 1 := by
  intro nums
  induction nums with
  | nil => intro _ _ hmem; exact absurd hmem (List.not_mem_nil _)
  | cons num rest ihl =>
    intro hrange hnd hmem c₀ hc₀
    rw [List.foldl_cons]
    by_cases hne : num = s rc.1 rc.2
    · subst hne
      have hv : isValidPlacement g rc.1 rc.2 (s rc.1 rc.2) = true :=
        (completes_step_forward hs h0).1
      have h1 : 1 ≤ s rc.1 rc.2 := (hs.1 rc.1 rc.2).1.1
      have h9 : s rc.1 rc.2 ≤ 9 := (hs.1 rc.1 rc.2).1.2
      have hstep : cStep fuel g rc c₀ (s rc.1 rc.2) = c₀ + 1 := by
        rw [cStep_pos hv]
        refine (H (setCell g rc.1 rc.2 (s rc.1 rc.2)) c₀
          (consistent_setCell hg h0 h1 h9 hv)
          (numEmpty_branch_lt h0 (by omega) hfu)).2.1 ?_ hc₀
        refine ⟨s, (branch_completes_iff h0 h1 s).mpr ⟨hs, rfl⟩, ?_⟩
        intro t ht
        exact hu t ((branch_completes_iff h0 h1 t).mp ht).1
      rw [hstep]
      have hsnot : s rc.1 rc.2 ∉ rest := (List.nodup_cons.mp hnd).1
      refine cFold_none H hg h0 hfu rest
        (fun n hn => hrange n (List.mem_cons_of_mem _ hn)) ?_ (c₀ + 1)
      rintro n hn ⟨t, ht, htv⟩
      rw [hu t ht] at htv
      rw [← htv] at hn
      exact hsnot hn
    · have hmem' : s rc.1 rc.2 ∈ rest := by
        rcases List.mem_cons.mp hmem with h | h
        · exact absurd h.symm hne
        · exact h
      have hstep : cStep fuel g rc c₀ num = c₀ := by
        by_cases hv : isValidPlacement g rc.1 rc.2 num = true
        · rw [cStep_pos hv]
          have h1 := (hrange num (List.mem_cons_self _ _)).1
          have h9 := (hrange num (List.mem_cons_self _ _)).2
          refine (H _ c₀ (consistent_setCell hg h0 h1 h9 hv)
            (numEmpty_branch_lt h0 (by omega) hfu)).1 ?_
          rintro ⟨t, ht⟩
          obtain ⟨htg, htv⟩ := (branch_completes_iff h0 h1 t).mp ht
          rw [hu t htg] at htv
          exact hne htv.symm
        · exact cStep_neg hv
      rw [hstep]
      exact ihl (fun n hn => hrange n (List.mem_cons_of_mem _ hn))
        (List.nodup_cons.mp hnd).2 hmem' c₀ hc₀

/-- A candidate segment containing the digit of at least one completion pushes
a not-yet-saturated counter strictly up. -/
theorem cFold_one {fuel : ℕ} {g : Grid} {rc : Fin 9 × Fin 9}
    (H : CountGood fuel) (hg : consistentG g) (h0 : g rc.1 rc.2 = 0)
    (hfu : numEmpty g ≤ fuel) (u : Grid) (hu : completes g u) :
    ∀ (nums : List ℕ), (∀ num ∈ nums, 1 ≤ num ∧ num ≤ 9) →
      u rc.1 rc.2 ∈ nums → ∀ c₀, c₀ ≤ 1 →
      c₀ + 1 ≤ nums.foldl (cStep fuel g rc) c₀ := by
  intro nums
  induction nums with
  | nil => intro _ hmem; exact absurd hmem (List.not_mem_nil _)
  | cons num rest ihl =>
    intro hrange hmem c₀ hc₀
    rw [List.foldl_cons]
    by_cases hne : num = u rc.1 rc.2
    · subst hne
      have hv : isValidPlacement g rc.1 rc.2 (u rc.1 rc.2) = true :=
        (completes_step_forward hu h0).1
      have h1 : 1 ≤ u rc.1 rc.2 := (hu.1 rc.1 rc.2).1.1
      have h9 : u rc.1 rc.2 ≤ 9 := (hu.1 rc.1 rc.2).1.2
      rw [cStep_pos hv]
      have hlow := countAux_lower H (consistent_setCell hg h0 h1 h9 hv)
        (numEmpty_branch_lt h0 (by omega) hfu)
        ⟨u, (branch_completes_iff h0 h1 u).mpr ⟨hu, rfl⟩⟩ hc₀
      have hmono := cFold_mono fuel g rc rest
        (countAux fuel (setCell g rc.1 rc.2 (u rc.1 rc.2)) c₀)
      omega
    · have hmem' : u rc.1 rc.2 ∈ rest := by
        rcases List.mem_cons.mp hmem with h | h
        · exact absurd h.symm hne
        · exact h
      have hle : c₀ ≤ cStep fuel g rc c₀ num := cStep_mono _ _ _ _ _
      by_cases hc₁le : cStep fuel g rc c₀ num ≤ 1
      · have := ihl (fun n hn => hrange n (List.mem_cons_of_mem _ hn)) hmem'
          (cStep fuel g rc c₀ num) hc₁le
        omega
      · push_neg at hc₁le
        rw [cFold_entry fuel g rc rest _ hc₁le]
        omega

/-- A candidate segment containing the digits of two distinct completions
drives the counter above 1. -/
theorem cFold_two {fuel : ℕ} {g : Grid} {rc : Fin 9 × Fin 9}
    (H : CountGood fuel) (hg : consistentG g) (h0 : g rc.1 rc.2 = 0)
    (hfu : numEmpty g ≤ fuel) :
    ∀ (nums : List ℕ), (∀ num ∈ nums, 1 ≤ num ∧ num ≤ 9) →
      ∀ (u v : Grid), completes g u → completes g v → u ≠ v →
      u rc.1 rc.2 ∈ nums → v rc.1 rc.2 ∈ nums → ∀ c₀, c₀ ≤ 1 →
      1 < nums.foldl (cStep fuel g rc) c₀ := by
  intro nums
  induction nums with
  | nil => intro _ u v _ _ _ hmem; exact absurd hmem (List.not_mem_nil _)
  | cons num rest ihl =>
    intro hrange u v hcu hcv huv hmu hmv c₀ hc₀
    rw [List.foldl_cons]
    have hrest : ∀ n ∈ rest, 1 ≤ n ∧ n ≤ 9 :=
      fun n hn => hrange n (List.mem_cons_of_mem _ hn)
    by_cases h1 : num = u rc.1 rc.2 <;> by_cases h2 : num = v rc.1 rc.2
    · -- both completions place `num` at the cell: the branch has two
      have ha : 1 ≤ num := by rw [h1]; exact (hcu.1 rc.1 rc.2).1.1
      have hb : num ≤ 9 := by rw [h1]; exact (hcu.1 rc.1 rc.2).1.2
      have hv' : isValidPlacement g rc.1 rc.2 num = true := by
        rw [h1]; exact (completes_step_forward hcu h0).1
      rw [cStep_pos hv']
      have hgt := (H _ c₀ (consistent_setCell hg h0 ha hb hv')
          (numEmpty_branch_lt h0 (by omega) hfu)).2.2
        ⟨u, v, (branch_completes_iff h0 ha u).mpr ⟨hcu, h1.symm⟩,
          (branch_completes_iff h0 ha v).mpr ⟨hcv, h2.symm⟩, huv⟩
      rw [cFold_entry fuel g rc rest _ hgt]
      exact hgt
    · -- u's digit at the head, v's digit further on
      have hmv' : v rc.1 rc.2 ∈ rest := by
        rcases List.mem_cons.mp hmv with h | h
        · exact absurd h.symm h2
        · exact h
      have ha : 1 ≤ num := by rw [h1]; exact (hcu.1 rc.1 rc.2).1.1
      have hb : num ≤ 9 := by rw [h1]; exact (hcu.1 rc.1 rc.2).1.2
      have hv' : isValidPlacement g rc.1 rc.2 num = true := by
        rw [h1]; exact (completes_step_forward hcu h0).1
      rw [cStep_pos hv']
      have hlow := countAux_lower H (consistent_setCell hg h0 ha hb hv')
        (numEmpty_branch_lt h0 (by omega) hfu)
        ⟨u, (branch_completes_iff h0 ha u).mpr ⟨hcu, h1.symm⟩⟩ hc₀
      by_cases hc₁le : countAux fuel (setCell g rc.1 rc.2 num) c₀ ≤ 1
      · have := cFold_one H hg h0 hfu v hcv rest hrest hmv'
          (countAux fuel (setCell g rc.1 rc.2 num) c₀) hc₁le
        omega
      · push_neg at hc₁le
        rw [cFold_entry fuel g rc rest _ hc₁le]
        exact hc₁le
    · -- v's digit at the head, u's digit further on
      have hmu' : u rc.1 rc.2 ∈ rest := by
        rcases List.mem_cons.mp hmu with h | h
        · exact absurd h.symm h1
        · exact h
      have ha : 1 ≤ num := by rw [h2]; exact (hcv.1 rc.1 rc.2).1.1
      have hb : num ≤ 9 := by rw [h2]; exact (hcv.1 rc.1 rc.2).1.2
      have hv' : isValidPlacement g rc.1 rc.2 num = true := by
        rw [h2]; exact (completes_step_forward hcv h0).1
      rw [cStep_pos hv']
      have hlow := countAux_lower H (consistent_setCell hg h0 ha hb hv')
        (numEmpty_branch_lt h0 (by omega) hfu)
        ⟨v, (branch_completes_iff h0 ha v).mpr ⟨hcv, h2.symm⟩⟩ hc₀
      by_cases hc₁le : countAux fuel (setCell g rc.1 rc.2 num) c₀ ≤ 1
      · have := cFold_one H hg h0 hfu u hcu rest hrest hmu'
          (countAux fuel (setCell g rc.1 rc.2 num) c₀) hc₁le
        omega
      · push_neg at hc₁le
        rw [cFold_entry fuel g rc rest _ hc₁le]
        exact hc₁le
    · -- neither digit at the head
      have hmu' : u rc.1 rc.2 ∈ rest := by
        rcases List.mem_cons.mp hmu with h | h
        · exact absurd h.symm h1
        · exact h
      have hmv' : v rc.1 rc.2 ∈ rest := by
        rcases List.mem_cons.mp hmv with h | h
        · exact absurd h.symm h2
        · exact h
      by_cases hc₁le : cStep fuel g rc c₀ num ≤ 1
      · exact ihl hrest u v hcu hcv huv hmu' hmv' (cStep fuel g rc c₀ num) hc₁le
      · push_neg at hc₁le
        rw [cFold_entry fuel g rc rest _ hc₁le]
        exact hc₁le

/-- Full correctness of the solution counter on consistent grids with enough
fuel, by induction on the fuel. -/
theorem countGood_all : ∀ fuel, CountGood fuel := by
  intro fuel
  induction fuel with
  | zero => intro g cnt hg hfu; exact absurd hfu (Nat.not_lt_zero _)
  | succ fuel H =>
    intro g cnt hg hfu
    by_cases hcnt : 1 < cnt
    · have he : countAux (fuel + 1) g cnt = cnt := countAux_entry _ _ hcnt
      exact ⟨fun _ => he, fun _ hle => absurd hle (by omega),
        fun _ => by rw [he]; exact hcnt⟩
    · cases hfind : findEmptyCell g with
      | none =>
        have hfull := findEmptyCell_none.mp hfind
        have hvs : validSolution g := fun r c => hg r c (hfull r c)
        have heq : countAux (fuel + 1) g cnt = cnt + 1 := by
          rw [countAux, if_neg hcnt, hfind]
        refine ⟨?_, fun _ _ => heq, ?_⟩
        · intro hno
          exact absurd ⟨g, hvs, fun _ _ _ => rfl⟩ hno
        · rintro ⟨s, t, hs, ht, hst⟩
          have e1 := completes_full_unique hvs hs
          have e2 := completes_full_unique hvs ht
          exact absurd (e1.trans e2.symm) hst
      | some rc =>
        have h0 := findEmptyCell_some hfind
        have hfu' : numEmpty g ≤ fuel := by omega
        have heq := @countAux_some fuel g rc cnt hcnt hfind
        have hrange : ∀ num ∈ nineL, 1 ≤ num ∧ num ≤ 9 := by
          intro num hnum
          rw [mem_nineL] at hnum
          exact hnum
        refine ⟨?_, ?_, ?_⟩
        · intro hno
          rw [heq]
          refine cFold_none H hg h0 hfu' nineL hrange ?_ cnt
          rintro num _ ⟨s, hs, _⟩
          exact hno ⟨s, hs⟩
        · rintro ⟨s, hs, hu⟩ hle
          rw [heq]
          exact cFold_unique H hg h0 hfu' s hs hu nineL hrange nineL_nodup
            (mem_nineL.mpr (hs.1 rc.1 rc.2).1) cnt hle
        · rintro ⟨u, v, hcu, hcv, huv⟩
          rw [heq]
          exact cFold_two H hg h0 hfu' nineL hrange u v hcu hcv huv
            (mem_nineL.mpr (hcu.1 rc.1 rc.2).1) (mem_nineL.mpr (hcv.1 rc.1 rc.2).1)
            cnt (by omega)

theorem searchAux_some {fuel : ℕ} {σ : ℕ → List ℕ} {k : ℕ} {g : Grid}
    {rc : Fin 9 × Fin 9} (hfind : findEmptyCell g = some rc) :
    searchAux (fuel + 1) σ k g = (σ k).foldl (sStep fuel σ g rc) (none, k + 1) := by
  rw [searchAux, hfind]
  rfl

theorem searchAux_full {fuel : ℕ} {σ : ℕ → List ℕ} {k : ℕ} {g : Grid}
    (hfind : findEmptyCell g = none) :
    searchAux (fuel + 1) σ k g = (some g, k) := by
  rw [searchAux, hfind]

/-- Once a solution has been found, the remaining loop iterations return it
unchanged (`if (this.solve(grid)) return true`). -/
theorem sFold_keep (fuel : ℕ) (σ : ℕ → List ℕ) (g : Grid) (rc : Fin 9 × Fin 9) :
    ∀ (nums : List ℕ) (st : Option Grid × ℕ) (t : Grid), st.1 = some t →
      nums.foldl (sStep fuel σ g rc) st = st := by
  intro nums
  induction nums with
  | nil => intro st t _; rfl
  | cons num rest ihl =>
    intro st t hst
    rw [List.foldl_cons]
    have hstep : sStep fuel σ g rc st num = st := by
      unfold sStep
      rw [hst]
    rw [hstep]
    exact ihl st t hst

/-- Soundness of the search: any returned grid pseudo-completes the input. -/
theorem searchAux_sound : ∀ (fuel : ℕ) (σ : ℕ → List ℕ) (k : ℕ) (g s : Grid) (k' : ℕ),
    (∀ kk num, num ∈ σ kk → 1 ≤ num ∧ num ≤ 9) →
    searchAux fuel σ k g = (some s, k') → pseudoCompletes g s := by
  intro fuel
  induction fuel with
  | zero =>
    intro σ k g s k' _ h
    simp [searchAux] at h
  | succ fuel ih =>
    intro σ k g s k' hσ h
    cases hfind : findEmptyCell g with
    | none =>
      rw [searchAux_full hfind] at h
      obtain ⟨h1, _⟩ := Prod.mk.injEq .. ▸ h
      cases h
      exact pseudoCompletes_refl_full (findEmptyCell_none.mp hfind)
    | some rc =>
      rw [searchAux_some hfind] at h
      have h0 : g rc.1 rc.2 = 0 := findEmptyCell_some hfind
      have hfold : ∀ (nums : List ℕ) (init : Option Grid × ℕ),
          nums.foldl (sStep fuel σ g rc) init = (some s, k') →
          init.1 = some s ∨ ∃ num ∈ nums, ∃ kk kr,
            isValidPlacement g rc.1 rc.2 num = true ∧
            searchAux fuel σ kk (setCell g rc.1 rc.2 num) = (some s, kr) := by
        intro nums
        induction nums with
        | nil =>
          intro init hinit
          left
          have h' : init = (some s, k') := hinit
          rw [h']
        | cons num rest ihl =>
          intro init hinit
          rw [List.foldl_cons] at hinit
          rcases ihl _ hinit with hleft | ⟨n, hn, kk, kr, hv, hres⟩
          · cases hi : init.1 with
            | some t =>
              left
              have hkeep : sStep fuel σ g rc init num = init := by
                unfold sStep
                rw [hi]
              rw [hkeep, hi] at hleft
              exact hleft
            | none =>
              by_cases hv : isValidPlacement g rc.1 rc.2 num = true
              · right
                have hstep : sStep fuel σ g rc init num
                    = searchAux fuel σ init.2 (setCell g rc.1 rc.2 num) := by
                  unfold sStep
                  rw [hi, if_pos hv]
                rw [hstep] at hleft
                refine ⟨num, List.mem_cons_self _ _, init.2,
                  (searchAux fuel σ init.2 (setCell g rc.1 rc.2 num)).2, hv, ?_⟩
                rw [← hleft]
              · have hstep : sStep fuel σ g rc init num = init := by
                  unfold sStep
                  rw [hi, if_neg hv]
                rw [hstep] at hleft
                rw [hi] at hleft
                cases hleft
          · exact Or.inr ⟨n, List.mem_cons_of_mem _ hn, kk, kr, hv, hres⟩
      rcases hfold (σ k) (none, k + 1) h with hleft | ⟨num, hmem, kk, kr, hv, hres⟩
      · cases hleft
      · have hrange := hσ k num hmem
        exact pseudoCompletes_step h0 hrange.1 hrange.2 hv (ih σ kk _ s kr hσ hres)

/-- Completeness of the search: on a consistent grid with enough fuel whose
completion exists, the search returns a solution (for any candidate source
that always offers all digits 1–9). -/
theorem searchAux_complete : ∀ (fuel : ℕ) (σ : ℕ → List ℕ),
    (∀ kk num, 1 ≤ num → num ≤ 9 → num ∈ σ kk) →
    ∀ (g : Grid), consistentG g → numEmpty g < fuel → (∃ s, completes g s) →
    ∀ k, ∃ t k', searchAux fuel σ k g = (some t, k') := by
  intro fuel
  induction fuel with
  | zero => intro σ _ g _ hfu _ _; exact absurd hfu (Nat.not_lt_zero _)
  | succ fuel ih =>
    intro σ hσ g hg hfu hex k
    cases hfind : findEmptyCell g with
    | none => exact ⟨g, k, searchAux_full hfind⟩
    | some rc =>
      obtain ⟨s, hs⟩ := hex
      have h0 : g rc.1 rc.2 = 0 := findEmptyCell_some hfind
      have hv := (completes_step_forward hs h0).1
      have h1 : 1 ≤ s rc.1 rc.2 := (hs.1 rc.1 rc.2).1.1
      have h9 : s rc.1 rc.2 ≤ 9 := (hs.1 rc.1 rc.2).1.2
      have hbr : ∀ kk, ∃ t k',
          searchAux fuel σ kk (setCell g rc.1 rc.2 (s rc.1 rc.2)) = (some t, k') :=
        fun kk => ih σ hσ _ (consistent_setCell hg h0 h1 h9 hv)
          (numEmpty_branch_lt h0 (by omega) (by omega))
          ⟨s, (completes_step_forward hs h0).2⟩ kk
      rw [searchAux_some hfind]
      have hmem : s rc.1 rc.2 ∈ σ k := hσ k _ h1 h9
      have hfold : ∀ (nums : List ℕ), s rc.1 rc.2 ∈ nums → ∀ k₀,
          ∃ t k', nums.foldl (sStep fuel σ g rc) (none, k₀) = (some t, k') := by
        intro nums
        induction nums with
        | nil => intro hmem'; exact absurd hmem' (List.not_mem_nil _)
        | cons num rest ihl =>
          intro hmem' k₀
          rw [List.foldl_cons]
          by_cases hres : ∃ t, (sStep fuel σ g rc (none, k₀) num).1 = some t
          · obtain ⟨t, ht⟩ := hres
            refine ⟨t, (sStep fuel σ g rc (none, k₀) num).2, ?_⟩
            rw [sFold_keep fuel σ g rc rest _ t ht]
            exact Prod.ext ht rfl
          · have hnone : (sStep fuel σ g rc (none, k₀) num).1 = none := by
              cases ho : (sStep fuel σ g rc (none, k₀) num).1 with
              | none => rfl
              | some t => exact absurd ⟨t, ho⟩ hres
            have hne : num ≠ s rc.1 rc.2 := by
              intro he
              have hv' : isValidPlacement g rc.1 rc.2 num = true := by
                rw [he]; exact hv
              have hstep : sStep fuel σ g rc (none, k₀) num
                  = searchAux fuel σ k₀ (setCell g rc.1 rc.2 num) := by
                unfold sStep
                rw [if_pos hv']
              obtain ⟨t, k', hbk⟩ := hbr k₀
              rw [hstep] at hnone
              rw [he, hbk] at hnone
              simp at hnone
            have hmem'' : s rc.1 rc.2 ∈ rest := by
              rcases List.mem_cons.mp hmem' with h | h
              · exact absurd h.symm hne
              · exact h
            have hst : sStep fuel σ g rc (none, k₀) num
                = (none, (sStep fuel σ g rc (none, k₀) num).2) := Prod.ext hnone rfl
            rw [hst]
            exact ihl hmem'' _
      obtain ⟨t, k', hf⟩ := hfold (σ k) hmem (k + 1)
      exact ⟨t, k', hf⟩

theorem searchAuxS_some {fuel : ℕ} {σ : ℕ → List ℕ} {k : ℕ} {g : Grid}
    {rc : Fin 9 × Fin 9} (hfind : findEmptyCell g = some rc) :
    searchAuxS (fuel + 1) σ k g = (σ k).foldl (sStepS fuel σ rc) (g, false, k + 1) := by
  rw [searchAuxS, hfind]
  rfl

theorem searchAuxS_full {fuel : ℕ} {σ : ℕ → List ℕ} {k : ℕ} {g : Grid}
    (hfind : findEmptyCell g = none) :
    searchAuxS (fuel + 1) σ k g = (g, true, k) := by
  rw [searchAuxS, hfind]

theorem sStepS_skip {fuel : ℕ} {σ : ℕ → List ℕ} {rc : Fin 9 × Fin 9}
    {st : Grid × Bool × ℕ} {num : ℕ} (h : st.2.1 = true) :
    sStepS fuel σ rc st num = st := by
  unfold sStepS
  rw [if_pos h]

theorem sFoldS_keep (fuel : ℕ) (σ : ℕ → List ℕ) (rc : Fin 9 × Fin 9) :
    ∀ (nums : List ℕ) (st : Grid × Bool × ℕ), st.2.1 = true →
      nums.foldl (sStepS fuel σ rc) st = st := by
  intro nums
  induction nums with
  | nil => intro st _; rfl
  | cons num rest ihl =>
    intro st hst
    rw [List.foldl_cons, sStepS_skip hst]
    exact ihl st hst

/-- The mutating search agrees with the pure recurrence: on success it
returns the solved grid with `true`, on failure the restored input grid with
`false`, consuming the same candidate-source invocations. -/
theorem searchAuxS_eq : ∀ (fuel : ℕ) (σ : ℕ → List ℕ) (k : ℕ) (g : Grid),
    searchAuxS fuel σ k g =
      match searchAux fuel σ k g with
      | (some s, k') => (s, true, k')
      | (none, k') => (g, false, k') := by
  intro fuel
  induction fuel with
  | zero => intro σ k g; rfl
  | succ fuel ih =>
    intro σ k g
    cases hfind : findEmptyCell g with
    | none =>
      rw [searchAuxS_full hfind, searchAux_full hfind]
    | some rc =>
      rw [searchAuxS_some hfind, searchAux_some hfind]
      have h0 : g rc.1 rc.2 = 0 := findEmptyCell_some hfind
      have hfold : ∀ (nums : List ℕ) (k₀ : ℕ),
          nums.foldl (sStepS fuel σ rc) (g, false, k₀) =
            match nums.foldl (sStep fuel σ g rc) (none, k₀) with
            | (some s, k') => (s, true, k')
            | (none, k') => (g, false, k') := by
        intro nums
        induction nums with
        | nil => intro k₀; rfl
        | cons num rest ihl =>
          intro k₀
          rw [List.foldl_cons, List.foldl_cons]
          by_cases hv : isValidPlacement g rc.1 rc.2 num = true
          · have hstepS : sStepS fuel σ rc (g, false, k₀) num =
                if (searchAuxS fuel σ k₀ (setCell g rc.1 rc.2 num)).2.1 then
                  searchAuxS fuel σ k₀ (setCell g rc.1 rc.2 num)
                else
                  (setCell (searchAuxS fuel σ k₀ (setCell g rc.1 rc.2 num)).1 rc.1 rc.2 0,
                   false, (searchAuxS fuel σ k₀ (setCell g rc.1 rc.2 num)).2.2) := by
              unfold sStepS
              simp only [hv, if_true, Bool.false_eq_true, if_false]
            have hstepP : sStep fuel σ g rc (none, k₀) num
                = searchAux fuel σ k₀ (setCell g rc.1 rc.2 num) := by
              unfold sStep
              rw [if_pos hv]
            rw [hstepS, hstepP, ih]
            cases hsa : searchAux fuel σ k₀ (setCell g rc.1 rc.2 num) with
            | mk o k' =>
              cases o with
              | some s =>
                have hkeepS := sFoldS_keep fuel σ rc rest (s, true, k') rfl
                have hkeepP := sFold_keep fuel σ g rc rest (some s, k') s rfl
                simp only [if_true, hkeepS, hkeepP]
              | none =>
                simp only [if_false, Bool.false_eq_true, setCell_cancel _ _ _ _ h0]
                exact ihl k'
          · have hstepS : sStepS fuel σ rc (g, false, k₀) num = (g, false, k₀) := by
              unfold sStepS
              simp only [hv, Bool.false_eq_true, if_false]
            have hstepP : sStep fuel σ g rc (none, k₀) num = (none, k₀) := by
              unfold sStep
              rw [if_neg hv]
            rw [hstepS, hstepP]
            exact ihl k₀
      exact hfold (σ k) (k + 1)

theorem solvePuzzle_sound {p s : Grid} (h : solvePuzzle p = some s) :
    pseudoCompletes p s := by
  unfold solvePuzzle at h
  rw [searchAuxS_eq] at h
  cases hsa : searchAux 82 (fun _ => nineL) 0 p with
  | mk o k' =>
    rw [hsa] at h
    cases o with
    | some t =>
      simp at h
      rw [← h]
      exact searchAux_sound 82 _ 0 p t k' (fun kk num hm => mem_nineL.mp hm) hsa
    | none => simp at h

theorem solvePuzzle_of_completes {p : Grid} (hg : consistentG p)
    (hex : ∃ s, completes p s) :
    ∃ s, solvePuzzle p = some s ∧ completes p s := by
  obtain ⟨t, k', hsa⟩ := searchAux_complete 82 (fun _ => nineL)
    (fun kk num h1 h9 => mem_nineL.mpr ⟨h1, h9⟩) p hg
    (by have := numEmpty_le p; omega) hex 0
  refine ⟨t, ?_, ?_⟩
  · unfold solvePuzzle
    rw [searchAuxS_eq, hsa]
    simp
  · exact pseudoCompletes_completes hg
      (searchAux_sound 82 _ 0 p t k' (fun kk num hm => mem_nineL.mp hm) hsa)

theorem set_get_self {α : Type} : ∀ (l : List α) (i : ℕ) (h : i < l.length),
    l.set i (l.get ⟨i, h⟩) = l := by
  intro l
  induction l with
  | nil => intro i h; cases h
  | cons b t iht =>
    intro i h
    cases i with
    | zero => rfl
    | succ i =>
      have h' : i < t.length := Nat.lt_of_succ_lt_succ h
      show b :: t.set i (t.get ⟨i, h'⟩) = b :: t
      rw [iht i h']

theorem set_cons_perm {α : Type} : ∀ (t : List α) (m : ℕ) (hm : m < t.length) (a : α),
    List.Perm (t.get ⟨m, hm⟩ :: t.set m a) (a :: t) := by
  intro t
  induction t with
  | nil => intro m hm; cases hm
  | cons b t' iht =>
    intro m hm a
    cases m with
    | zero => exact List.Perm.swap a b t'
    | succ m =>
      have hm' : m < t'.length := Nat.lt_of_succ_lt_succ hm
      have h1 : List.Perm (t'.get ⟨m, hm'⟩ :: b :: t'.set m a)
          (b :: t'.get ⟨m, hm'⟩ :: t'.set m a) :=
        List.Perm.swap b (t'.get ⟨m, hm'⟩) (t'.set m a)
      have h2 : List.Perm (b :: t'.get ⟨m, hm'⟩ :: t'.set m a) (b :: a :: t') :=
        (iht m hm' a).cons b
      have h3 : List.Perm (b :: a :: t') (a :: b :: t') := List.Perm.swap a b t'
      exact (h1.trans h2).trans h3

theorem swapIdx_perm {α : Type} (l : List α) (i j : ℕ) : List.Perm (swapIdx l i j) l := by
  unfold swapIdx
  by_cases h : i < l.length ∧ j < l.length
  · rw [dif_pos h]
    by_cases hij : i = j
    · subst hij
      rw [List.set_set, set_get_self]
    · have hj' : j < (l.set i (l.get ⟨j, h.2⟩)).length := by
        rw [List.length_set]; exact h.2
      have hget : (l.set i (l.get ⟨j, h.2⟩)).get ⟨j, hj'⟩ = l.get ⟨j, h.2⟩ := by
        simp only [List.get_eq_getElem]
        exact List.getElem_set_ne hij _
      have p1 := set_cons_perm (l.set i (l.get ⟨j, h.2⟩)) j hj' (l.get ⟨i, h.1⟩)
      rw [hget] at p1
      have p2 := set_cons_perm l i h.1 (l.get ⟨j, h.2⟩)
      exact List.Perm.cons_inv (p1.trans p2)
  · rw [dif_neg h]

theorem shuffleGo_perm {α : Type} (draws : ℕ → ℕ) :
    ∀ (i : ℕ) (l : List α), List.Perm (shuffleGo draws i l) l := by
  intro i
  induction i with
  | zero => intro l; exact List.Perm.refl l
  | succ i ih =>
    intro l
    exact (ih _).trans (swapIdx_perm _ _ _)

/-- Whatever the random draws, `shuffleArray` returns a permutation of its
input. -/
theorem shuffleArray_perm {α : Type} (l : List α) (draws : ℕ → ℕ) :
    List.Perm (shuffleArray l draws) l :=
  shuffleGo_perm draws _ l

theorem baseSolution_valid : validSolution baseSolution := by decide

theorem emptyGrid_consistent : consistentG emptyGrid :=
  fun _ _ h => absurd rfl h

theorem generateSolution_valid (σ : ℕ → ℕ → ℕ) :
    validSolution (generateSolution σ) := by
  have hσr : ∀ kk num, num ∈ shuffleArray nineL (σ kk) → 1 ≤ num ∧ num ≤ 9 :=
    fun kk num h => mem_nineL.mp ((shuffleArray_perm nineL (σ kk)).mem_iff.mp h)
  have hσc : ∀ kk num, 1 ≤ num → num ≤ 9 → num ∈ shuffleArray nineL (σ kk) :=
    fun kk num h1 h9 => (shuffleArray_perm nineL (σ kk)).mem_iff.mpr (mem_nineL.mpr ⟨h1, h9⟩)
  obtain ⟨t, k', hsa⟩ := searchAux_complete 82 _ hσc emptyGrid
    emptyGrid_consistent (by have := numEmpty_le emptyGrid; omega)
    ⟨baseSolution, baseSolution_valid, fun r c h => absurd rfl h⟩ 0
  have hcomp := pseudoCompletes_completes emptyGrid_consistent
    (searchAux_sound 82 _ 0 emptyGrid t k' hσr hsa)
  unfold generateSolution
  rw [searchAuxS_eq, hsa]
  exact hcomp.1

/-- Nine pairwise-distinct values in 1–9 hit every digit exactly once. -/
theorem inj_range_exists_unique (f : Fin 9 → ℕ)
    (hinj : ∀ i j, i ≠ j → f i ≠ f j) (hrange : ∀ i, 1 ≤ f i ∧ f i ≤ 9) :
    ∀ v, 1 ≤ v → v ≤ 9 → ∃! i, f i = v := by
  classical
  intro v h1 h9
  have hinj' : Function.Injective f := by
    intro a b hab
    by_contra hne
    exact hinj a b hne hab
  have himage : Finset.univ.image f = Finset.Icc 1 9 := by
    apply Finset.eq_of_subset_of_card_le
    · intro x hx
      obtain ⟨i, _, hi⟩ := Finset.mem_image.mp hx
      rw [← hi, Finset.mem_Icc]
      exact hrange i
    · rw [Finset.card_image_of_injective _ hinj', Finset.card_univ, Fintype.card_fin,
        Nat.card_Icc]
  have hv : v ∈ Finset.univ.image f := by
    rw [himage, Finset.mem_Icc]
    exact ⟨h1, h9⟩
  obtain ⟨i, _, hi⟩ := Finset.mem_image.mp hv
  exact ⟨i, hi, fun j hj => hinj' (hj.trans hi.symm)⟩

theorem randomInRange_mem (lo hi d : ℕ) (h : lo ≤ hi) :
    lo ≤ randomInRange lo hi d ∧ randomInRange lo hi d ≤ hi := by
  unfold randomInRange
  have : d % (hi - lo + 1) < hi - lo + 1 := Nat.mod_lt _ (by omega)
  omega

theorem difficulty_min_le_max (d : Difficulty) :
    (DIFFICULTY_CONFIGS d).visibleCells.min ≤ (DIFFICULTY_CONFIGS d).visibleCells.max := by
  cases d <;> decide

theorem difficulty_max_le (d : Difficulty) :
    (DIFFICULTY_CONFIGS d).visibleCells.max ≤ 81 := by
  cases d <;> decide

theorem nonZeroCount_valid {s : Grid} (hs : validSolution s) : nonZeroCount s = 81 := by
  have h0 : numEmpty s = 0 := by
    unfold numEmpty
    rw [Finset.card_eq_zero, Finset.filter_eq_empty_iff]
    exact fun p _ => validSolution_nonzero hs p.1 p.2
  have := numEmpty_add_nonZeroCount s
  omega

/-- Invariant of the carving loop: the puzzle always agrees with the solution
on its non-empty cells, keeps `s` as its unique completion, and the removed
count tracks exactly the cleared cells without passing the target. -/
theorem carve_invariant (s : Grid) (hs : validSolution s) (ctr : ℕ) :
    ∀ (positions : List (Fin 9 × Fin 9)), positions.Nodup →
    ∀ (p : Grid) (removed : ℕ),
      (∀ r c, p r c ≠ 0 → p r c = s r c) →
      (∀ u, completes p u → u = s) →
      nonZeroCount p + removed = 81 →
      removed ≤ ctr →
      (∀ rc ∈ positions, p rc.1 rc.2 = s rc.1 rc.2) →
      (∀ r c, (positions.foldl (carveStep ctr) (p, removed)).1 r c ≠ 0 →
        (positions.foldl (carveStep ctr) (p, removed)).1 r c = s r c) ∧
      (∀ u, completes (positions.foldl (carveStep ctr) (p, removed)).1 u → u = s) ∧
      nonZeroCount (positions.foldl (carveStep ctr) (p, removed)).1
        + (positions.foldl (carveStep ctr) (p, removed)).2 = 81 ∧
      (positions.foldl (carveStep ctr) (p, removed)).2 ≤ ctr := by
  intro positions
  induction positions with
  | nil =>
    intro _ p removed hagree huni hcount hrem _
    exact ⟨hagree, huni, hcount, hrem⟩
  | cons rc rest ihl =>
    intro hnd p removed hagree huni hcount hrem huntouched
    rw [List.foldl_cons]
    by_cases hbreak : ctr ≤ removed
    · have hstep : carveStep ctr (p, removed) rc = (p, removed) := by
        unfold carveStep
        rw [if_pos hbreak]
      rw [hstep]
      exact ihl (List.nodup_cons.mp hnd).2 p removed hagree huni hcount hrem
        (fun q hq => huntouched q (List.mem_cons_of_mem _ hq))
    · have hprc : p rc.1 rc.2 = s rc.1 rc.2 := huntouched rc (List.mem_cons_self _ _)
      have hprc0 : p rc.1 rc.2 ≠ 0 := by
        rw [hprc]
        exact validSolution_nonzero hs rc.1 rc.2
      have hagree' : ∀ r c, setCell p rc.1 rc.2 0 r c ≠ 0 → setCell p rc.1 rc.2 0 r c = s r c := by
        intro r c hz
        by_cases hc : r = rc.1 ∧ c = rc.2
        · obtain ⟨h1, h2⟩ := hc; subst h1; subst h2
          rw [setCell_same] at hz
          exact absurd rfl hz
        · rw [setCell_other _ _ _ _ _ _ hc] at hz ⊢
          exact hagree r c hz
      have hcons' : consistentG (setCell p rc.1 rc.2 0) := subgrid_consistent hagree' hs
      have hcomp' : completes (setCell p rc.1 rc.2 0) s := by
        refine ⟨hs, ?_⟩
        intro r c hz
        have := hagree' r c hz
        rw [this]
      have hflt : numEmpty (setCell p rc.1 rc.2 0) < 82 := by
        have := numEmpty_le (setCell p rc.1 rc.2 0)
        omega
      by_cases hcnt : (countAuxS 82 (setCell p rc.1 rc.2 0) 0).2 = 1
      · -- removal kept: the cleared grid still has a unique completion
        have hstep : carveStep ctr (p, removed) rc = (setCell p rc.1 rc.2 0, removed + 1) := by
          unfold carveStep
          rw [if_neg hbreak, if_pos hcnt, countAuxS_eq]
        rw [hstep]
        have hcnt' : countAux 82 (setCell p rc.1 rc.2 0) 0 = 1 := by
          rw [countAuxS_eq] at hcnt
          exact hcnt
        have huni' : ∀ u, completes (setCell p rc.1 rc.2 0) u → u = s := by
          intro u hu
          by_contra hne
          have := (countGood_all 82 (setCell p rc.1 rc.2 0) 0 hcons' hflt).2.2
            ⟨u, s, hu, hcomp', hne⟩
          omega
        have hcount' : nonZeroCount (setCell p rc.1 rc.2 0) + (removed + 1) = 81 := by
          have := nonZeroCount_setCell_zero hprc0
          omega
        have huntouched' : ∀ q ∈ rest, setCell p rc.1 rc.2 0 q.1 q.2 = s q.1 q.2 := by
          intro q hq
          have hqne : q ≠ rc := by
            intro he
            rw [he] at hq
            exact (List.nodup_cons.mp hnd).1 hq
          have hqc : ¬(q.1 = rc.1 ∧ q.2 = rc.2) := by
            rintro ⟨h1, h2⟩
            exact hqne (Prod.ext h1 h2)
          rw [setCell_other _ _ _ _ _ _ hqc]
          exact huntouched q (List.mem_cons_of_mem _ hq)
        exact ihl (List.nodup_cons.mp hnd).2 _ _ hagree' huni' hcount' (by omega) huntouched'
      · -- removal rejected: the cell is restored, the state is unchanged
        have hstep : carveStep ctr (p, removed) rc = (p, removed) := by
          unfold carveStep
          rw [if_neg hbreak, if_neg hcnt, countAuxS_eq]
          rw [setCell_setCell, setCell_eq_self _ _ _ _ rfl]
        rw [hstep]
        exact ihl (List.nodup_cons.mp hnd).2 p removed hagree huni hcount hrem
          (fun q hq => huntouched q (List.mem_cons_of_mem _ hq))

/-- Bundle of the carver's guarantees: agreement with the solution on visible
cells, the solution being the unique completion, and the exact accounting of
removed cells against the drawn visible-cell target. -/
theorem createPuzzle_props (s : Grid) (hs : validSolution s) (d : Difficulty)
    (d0 : ℕ) (jdraws : ℕ → ℕ) :
    (∀ r c, createPuzzle s d d0 jdraws r c ≠ 0 → createPuzzle s d d0 jdraws r c = s r c) ∧
    completes (createPuzzle s d d0 jdraws) s ∧
    (∀ u, completes (createPuzzle s d d0 jdraws) u → u = s) ∧
    nonZeroCount (createPuzzle s d d0 jdraws)
      + (carve s (randomInRange (DIFFICULTY_CONFIGS d).visibleCells.min
          (DIFFICULTY_CONFIGS d).visibleCells.max d0) (shuffleArray allCells jdraws)).2
      = 81 ∧
    (carve s (randomInRange (DIFFICULTY_CONFIGS d).visibleCells.min
        (DIFFICULTY_CONFIGS d).visibleCells.max d0) (shuffleArray allCells jdraws)).2
      ≤ 81 - randomInRange (DIFFICULTY_CONFIGS d).visibleCells.min
          (DIFFICULTY_CONFIGS d).visibleCells.max d0 := by
  unfold createPuzzle carve
  have hnd : (shuffleArray allCells jdraws).Nodup :=
    ((shuffleArray_perm allCells jdraws).nodup_iff).mpr allCells_nodup
  have hinv := carve_invariant s hs
    (81 - randomInRange (DIFFICULTY_CONFIGS d).visibleCells.min
      (DIFFICULTY_CONFIGS d).visibleCells.max d0)
    (shuffleArray allCells jdraws) hnd s 0 (fun _ _ _ => rfl)
    (fun u hu => completes_full_unique hs hu) (by rw [nonZeroCount_valid hs])
    (Nat.zero_le _) (fun _ _ => rfl)
  obtain ⟨hagree, huni, hcount, hrem⟩ := hinv
  exact ⟨hagree, ⟨hs, fun r c h => (hagree r c h).symm⟩, huni, hcount, hrem⟩

theorem conflictGrid_preset {r c : Fin 9} (h : conflictGrid r c ≠ 0) :
    (r = 0 ∧ c = 0) ∨ (r = 0 ∧ c = 1) := by
  revert h
  unfold conflictGrid
  by_cases h1 : r = 0 ∧ c = 0
  · intro _; exact Or.inl h1
  · rw [if_neg h1]
    by_cases h2 : r = 0 ∧ c = 1
    · intro _; exact Or.inr h2
    · rw [if_neg h2]
      intro h; exact absurd rfl h

theorem conflictGrid_zero {r c : Fin 9} (hr : r ≠ 0) : conflictGrid r c = 0 := by
  unfold conflictGrid
  rw [if_neg (fun hx => hr hx.1), if_neg (fun hx => hr hx.1)]

/-- No grid the solver could return extends the conflict grid: a counting
argument on the digit 5 — rows 1–8 each must contain a 5 in pairwise distinct
columns, the presets add two more 5s in columns 0 and 1, and ten 5-cells in
nine columns force two in one column, which the search's pairwise checks
forbid. -/
theorem conflictGrid_no_pseudo (s : Grid) : ¬pseudoCompletes conflictGrid s := by
  classical
  rintro ⟨hext, hfull, hrange, hpair⟩
  have h00 : s 0 0 = 5 := by
    have h := hext 0 0 (by decide)
    rw [h]; decide
  have h01 : s 0 1 = 5 := by
    have h := hext 0 1 (by decide)
    rw [h]; decide
  have hrow5 : ∀ r : Fin 9, r ≠ 0 → ∃ c : Fin 9, s r c = 5 := by
    intro r hr
    have hinj : ∀ c c' : Fin 9, c ≠ c' → s r c ≠ s r c' := by
      intro c c' hne
      exact hpair (r, c) (r, c') (Or.inl rfl)
        (fun he => hne (congrArg Prod.snd he)) (Or.inl (conflictGrid_zero hr))
    have hrange' : ∀ c : Fin 9, 1 ≤ s r c ∧ s r c ≤ 9 :=
      fun c => hrange r c (conflictGrid_zero hr)
    obtain ⟨c, hc, _⟩ :=
      inj_range_exists_unique (fun c => s r c) hinj hrange' 5 (by omega) (by omega)
    exact ⟨c, hc⟩
  -- pick one 5-cell per row, plus the two preset 5s of row 0
  have hcell : ∀ r : Fin 9, ∃ p : Fin 9 × Fin 9, p.1 = r ∧ (r ≠ 0 → s p.1 p.2 = 5) := by
    intro r
    by_cases hr : r = 0
    · exact ⟨(r, 0), rfl, fun h => absurd hr h⟩
    · obtain ⟨c, hc⟩ := hrow5 r hr
      exact ⟨(r, c), rfl, fun _ => hc⟩
  choose cell hfst hval using hcell
  have hT : ∀ q ∈ insert ((0 : Fin 9), (0 : Fin 9)) (insert ((0 : Fin 9), (1 : Fin 9))
      ((Finset.univ.filter fun r : Fin 9 => r ≠ 0).image cell)), s q.1 q.2 = 5 := by
    intro q hq
    rcases Finset.mem_insert.mp hq with hq0 | hq'
    · rw [hq0]; exact h00
    · rcases Finset.mem_insert.mp hq' with hq1 | hqi
      · rw [hq1]; exact h01
      · obtain ⟨r, hrm, hrq⟩ := Finset.mem_image.mp hqi
        have hr0 : r ≠ 0 := (Finset.mem_filter.mp hrm).2
        rw [← hrq]
        exact hval r hr0
  have hcard : (insert ((0 : Fin 9), (0 : Fin 9)) (insert ((0 : Fin 9), (1 : Fin 9))
      ((Finset.univ.filter fun r : Fin 9 => r ≠ 0).image cell))).card = 10 := by
    have hcinj : Function.Injective cell := by
      intro a b hab
      rw [← hfst a, ← hfst b, hab]
    have himg : ((Finset.univ.filter fun r : Fin 9 => r ≠ 0).image cell).card = 8 := by
      rw [Finset.card_image_of_injective _ hcinj]
      decide
    have h1img : ((0 : Fin 9), (1 : Fin 9))
        ∉ (Finset.univ.filter fun r : Fin 9 => r ≠ 0).image cell := by
      intro hmem
      obtain ⟨r, hrm, hrq⟩ := Finset.mem_image.mp hmem
      have hr0 : r ≠ 0 := (Finset.mem_filter.mp hrm).2
      apply hr0
      have := hfst r
      rw [hrq] at this
      exact this.symm
    have h0img : ((0 : Fin 9), (0 : Fin 9)) ∉ insert ((0 : Fin 9), (1 : Fin 9))
        ((Finset.univ.filter fun r : Fin 9 => r ≠ 0).image cell) := by
      intro hmem
      rcases Finset.mem_insert.mp hmem with h | hmem'
      · exact absurd h (by decide)
      · obtain ⟨r, hrm, hrq⟩ := Finset.mem_image.mp hmem'
        have hr0 : r ≠ 0 := (Finset.mem_filter.mp hrm).2
        apply hr0
        have := hfst r
        rw [hrq] at this
        exact this.symm
    rw [Finset.card_insert_of_not_mem h0img, Finset.card_insert_of_not_mem h1img, himg]
  -- ten 5-cells but only nine columns: two share a column
  have hpig := Finset.exists_ne_map_eq_of_card_lt_of_maps_to
    (s := insert ((0 : Fin 9), (0 : Fin 9)) (insert ((0 : Fin 9), (1 : Fin 9))
      ((Finset.univ.filter fun r : Fin 9 => r ≠ 0).image cell)))
    (t := (Finset.univ : Finset (Fin 9)))
    (by rw [hcard]; simp)
    (fun p _ => Finset.mem_univ p.2)
  obtain ⟨p, hpm, q, hqm, hpq, hcol⟩ := hpig
  have hp5 := hT p hpm
  have hq5 := hT q hqm
  -- two distinct cells in the same column, both 5, at most one of them preset
  have hzor : conflictGrid p.1 p.2 = 0 ∨ conflictGrid q.1 q.2 = 0 := by
    by_contra hno
    push_neg at hno
    obtain ⟨hp0, hq0⟩ := hno
    rcases conflictGrid_preset hp0 with ⟨hp1, hp2⟩ | ⟨hp1, hp2⟩ <;>
      rcases conflictGrid_preset hq0 with ⟨hq1, hq2⟩ | ⟨hq1, hq2⟩
    · exact hpq (Prod.ext (hp1.trans hq1.symm) (hp2.trans hq2.symm))
    · rw [hp2, hq2] at hcol
      exact absurd hcol (by decide)
    · rw [hp2, hq2] at hcol
      exact absurd hcol (by decide)
    · exact hpq (Prod.ext (hp1.trans hq1.symm) (hp2.trans hq2.symm))
  exact hpair p q (Or.inr (Or.inl hcol)) hpq hzor (by rw [hp5, hq5])

/-- C7: `solvePuzzle` on the grid whose only preset values are 5 at `(0,0)`
and 5 at `(0,1)` — an immediate row conflict — returns the not-found value
`none` as an ordinary result (in this embedding every outcome is an ordinary
`Option` value; there is no exception-like abort). -/
theorem C7_solvePuzzle_conflict_none : solvePuzzle conflictGrid = none := by
  cases hs : solvePuzzle conflictGrid with
  | none => rfl
  | some s => exact absurd (solvePuzzle_sound hs) (conflictGrid_no_pseudo s)

theorem getBlockIndex_blk (b i : Fin 9) : getBlockIndex (blkR b i) (blkC b i) = b.val := by
  unfold getBlockIndex blkR blkC
  have := b.isLt; have := i.isLt
  show (b.val / 3 * 3 + i.val / 3) / 3 * 3 + (b.val % 3 * 3 + i.val % 3) / 3 = b.val
  omega

theorem blk_inj {b i j : Fin 9} (h1 : blkR b i = blkR b j) (h2 : blkC b i = blkC b j) :
    i = j := by
  apply Fin.ext
  have e1 : b.val / 3 * 3 + i.val / 3 = b.val / 3 * 3 + j.val / 3 := congrArg Fin.val h1
  have e2 : b.val % 3 * 3 + i.val % 3 = b.val % 3 * 3 + j.val % 3 := congrArg Fin.val h2
  have := i.isLt; have := j.isLt
  omega

theorem blk_surj {b : Fin 9} {p : Fin 9 × Fin 9} (h : getBlockIndex p.1 p.2 = b.val) :
    ∃ i : Fin 9, p = (blkR b i, blkC b i) := by
  have h1 := p.1.isLt
  have h2 := p.2.isLt
  have hb := b.isLt
  have h' : p.1.val / 3 * 3 + p.2.val / 3 = b.val := h
  refine ⟨⟨p.1.val % 3 * 3 + p.2.val % 3, by omega⟩, ?_⟩
  refine Prod.ext (Fin.ext ?_) (Fin.ext ?_)
  · show p.1.val = b.val / 3 * 3 + (p.1.val % 3 * 3 + p.2.val % 3) / 3
    omega
  · show p.2.val = b.val % 3 * 3 + (p.1.val % 3 * 3 + p.2.val % 3) % 3
    omega

/-- In a valid solution every block contains every digit exactly once. -/
theorem validSolution_block_unique {s : Grid} (hs : validSolution s) (b : Fin 9)
    (v : ℕ) (h1 : 1 ≤ v) (h9 : v ≤ 9) :
    ∃! p : Fin 9 × Fin 9, getBlockIndex p.1 p.2 = b.val ∧ s p.1 p.2 = v := by
  have hinj : ∀ i j : Fin 9, i ≠ j → s (blkR b i) (blkC b i) ≠ s (blkR b j) (blkC b j) := by
    intro i j hij
    refine (hs (blkR b j) (blkC b j)).2 (blkR b i, blkC b i)
      (Or.inr (Or.inr ?_)) ?_
    · rw [getBlockIndex_blk, getBlockIndex_blk]
    · intro he
      obtain ⟨e1, e2⟩ := Prod.mk.injEq .. ▸ he
      exact hij (blk_inj e1.symm e2.symm)
  obtain ⟨i, hi, _⟩ := inj_range_exists_unique (fun i => s (blkR b i) (blkC b i)) hinj
    (fun i => (hs (blkR b i) (blkC b i)).1) v h1 h9
  refine ⟨(blkR b i, blkC b i), ⟨getBlockIndex_blk b i, hi⟩, ?_⟩
  rintro p ⟨hpb, hpv⟩
  by_contra hne
  exact (hs (blkR b i) (blkC b i)).2 p
    (Or.inr (Or.inr (by rw [getBlockIndex_blk, hpb])))
    (fun he => hne (he.symm)) (hpv.trans hi.symm)

/-- In a valid solution every row contains every digit exactly once. -/
theorem validSolution_row_unique {s : Grid} (hs : validSolution s) (r : Fin 9)
    (v : ℕ) (h1 : 1 ≤ v) (h9 : v ≤ 9) : ∃! c : Fin 9, s r c = v :=
  inj_range_exists_unique (fun c => s r c)
    (fun i j hij he => (hs r j).2 (r, i) (Or.inl rfl)
      (fun hq => hij (congrArg Prod.snd hq).symm) he)
    (fun c => (hs r c).1) v h1 h9

/-- In a valid solution every column contains every digit exactly once. -/
theorem validSolution_col_unique {s : Grid} (hs : validSolution s) (c : Fin 9)
    (v : ℕ) (h1 : 1 ≤ v) (h9 : v ≤ 9) : ∃! r : Fin 9, s r c = v :=
  inj_range_exists_unique (fun r => s r c)
    (fun i j hij he => (hs j c).2 (i, c) (Or.inr (Or.inl rfl))
      (fun hq => hij (congrArg Prod.fst hq).symm) he)
    (fun r => (hs r c).1) v h1 h9

theorem getRecords_difficulty (records : List GameRecord) (d : Difficulty) :
    ∀ r ∈ getRecordsByDifficulty records d, r.difficulty = d := by
  intro r hr
  unfold getRecordsByDifficulty at hr
  have hr' := List.mem_of_mem_take hr
  rw [List.mem_mergeSort] at hr'
  have := (List.mem_filter.mp hr').2
  simpa using this

theorem getRecords_sorted (records : List GameRecord) (d : Difficulty) :
    List.Pairwise (fun a b : GameRecord => b.score ≤ a.score)
      (getRecordsByDifficulty records d) := by
  unfold getRecordsByDifficulty
  apply List.Pairwise.sublist (List.take_sublist _ _)
  have hsorted := @List.sorted_mergeSort GameRecord
    (fun a b : GameRecord => decide (b.score ≤ a.score))
    (fun a b c hab hbc => by
      simp only [decide_eq_true_eq] at hab hbc ⊢
      exact le_trans hbc hab)
    (fun a b => by
      rw [Bool.or_eq_true, decide_eq_true_eq, decide_eq_true_eq]
      exact le_total b.score a.score)
    (records.filter fun r => decide (r.difficulty = d))
  exact hsorted.imp fun h => of_decide_eq_true h

theorem getRecords_length (records : List GameRecord) (d : Difficulty) :
    (getRecordsByDifficulty records d).length ≤ MAX_RECORDS_PER_DIFFICULTY := by
  unfold getRecordsByDifficulty
  exact List.length_take_le _ _

theorem getRecords_filter_other (records : List GameRecord) (d' d : Difficulty)
    (h : d' ≠ d) :
    (getRecordsByDifficulty records d').filter (fun r => decide (r.difficulty = d)) = [] := by
  rw [List.filter_eq_nil_iff]
  intro r hr
  have hd := getRecords_difficulty records d' r hr
  simp [hd, h]

theorem addRecord_le_three (records : List GameRecord) (entry : GameRecord)
    (newId : String) (now : ℕ) (d : Difficulty) :
    ((addRecord records entry newId now).filter
      fun r => decide (r.difficulty = d)).length ≤ MAX_RECORDS_PER_DIFFICULTY := by
  have hmatch : ∀ recs : List GameRecord,
      ((getRecordsByDifficulty recs d).filter
        fun r => decide (r.difficulty = d)).length ≤ MAX_RECORDS_PER_DIFFICULTY :=
    fun recs => le_trans (List.length_filter_le _ _) (getRecords_length recs d)
  unfold addRecord
  cases d with
  | beginner =>
    rw [List.filter_append, List.filter_append, List.filter_append,
      getRecords_filter_other _ .intermediate .beginner (by decide),
      getRecords_filter_other _ .hard .beginner (by decide),
      getRecords_filter_other _ .expert .beginner (by decide)]
    simp only [List.length_append, List.length_nil]
    have := hmatch (records ++ [{ entry with id := newId, date := now }])
    omega
  | intermediate =>
    rw [List.filter_append, List.filter_append, List.filter_append,
      getRecords_filter_other _ .beginner .intermediate (by decide),
      getRecords_filter_other _ .hard .intermediate (by decide),
      getRecords_filter_other _ .expert .intermediate (by decide)]
    simp only [List.length_append, List.length_nil]
    have := hmatch (records ++ [{ entry with id := newId, date := now }])
    omega
  | hard =>
    rw [List.filter_append, List.filter_append, List.filter_append,
      getRecords_filter_other _ .beginner .hard (by decide),
      getRecords_filter_other _ .intermediate .hard (by decide),
      getRecords_filter_other _ .expert .hard (by decide)]
    simp only [List.length_append, List.length_nil]
    have := hmatch (records ++ [{ entry with id := newId, date := now }])
    omega
  | expert =>
    rw [List.filter_append, List.filter_append, List.filter_append,
      getRecords_filter_other _ .beginner .expert (by decide),
      getRecords_filter_other _ .intermediate .expert (by decide),
      getRecords_filter_other _ .hard .expert (by decide)]
    simp only [List.length_append, List.length_nil]
    have := hmatch (records ++ [{ entry with id := newId, date := now }])
    omega

theorem carveH_frame (ctr pref : ℕ) :
    ∀ (positions : List (Fin 9 × Fin 9)) (st : List Grid × ℕ) (i : ℕ), i ≠ pref →
      (positions.foldl (carveStepH ctr pref) st).1[i]? = st.1[i]? := by
  intro positions
  induction positions with
  | nil => intro st i _; rfl
  | cons rc rest ihl =>
    intro st i hi
    rw [List.foldl_cons, ihl _ i hi]
    unfold carveStepH
    by_cases hb : ctr ≤ st.2
    · rw [if_pos hb]
    · rw [if_neg hb]
      by_cases hc : (countAuxS 82 (setCell (readRef st.1 pref) rc.1 rc.2 0) 0).2 = 1
      · rw [if_pos hc]
        exact List.getElem?_set_ne (Ne.symm hi)
      · rw [if_neg hc]
        exact List.getElem?_set_ne (Ne.symm hi)

/-- `createPuzzle` leaves every pre-existing array of the caller untouched:
all mutation happens on the freshly allocated private copy. -/
theorem createPuzzleH_frame (store : List Grid) (sref : ℕ) (d : Difficulty)
    (d0 : ℕ) (jdraws : ℕ → ℕ) (i : ℕ) (hi : i < store.length) :
    (createPuzzleH store sref d d0 jdraws).1[i]? = store[i]? := by
  unfold createPuzzleH
  rw [carveH_frame _ _ _ _ i (by omega)]
  exact List.getElem?_append_left hi

/-- `solvePuzzle` leaves every pre-existing array of the caller untouched. -/
theorem solvePuzzleH_frame (store : List Grid) (pzref : ℕ) (i : ℕ)
    (hi : i < store.length) :
    (solvePuzzleH store pzref).1[i]? = store[i]? := by
  unfold solvePuzzleH
  rw [List.getElem?_set_ne (by omega)]
  exact List.getElem?_append_left hi

/-- The heap-level carver computes, at the puzzle's reference, exactly the
value-level carving loop. -/
theorem carveH_run (ctr pref : ℕ) :
    ∀ (positions : List (Fin 9 × Fin 9)) (st : List Grid × ℕ), pref < st.1.length →
      (positions.foldl (carveStepH ctr pref) st).1.getD pref emptyGrid
          = (positions.foldl (carveStep ctr) (readRef st.1 pref, st.2)).1 ∧
        (positions.foldl (carveStepH ctr pref) st).2
          = (positions.foldl (carveStep ctr) (readRef st.1 pref, st.2)).2 := by
  intro positions
  induction positions with
  | nil => intro st _; exact ⟨rfl, rfl⟩
  | cons rc rest ihl =>
    intro st hlen
    rw [List.foldl_cons, List.foldl_cons]
    have hread : ∀ g : Grid, readRef (st.1.set pref g) pref = g := by
      intro g
      unfold readRef
      rw [List.getD_eq_getElem?_getD, List.getElem?_set_self hlen]
      rfl
    have hstep : readRef ((carveStepH ctr pref st rc).1) pref
          = (carveStep ctr (readRef st.1 pref, st.2) rc).1 ∧
        (carveStepH ctr pref st rc).2 = (carveStep ctr (readRef st.1 pref, st.2) rc).2 ∧
        pref < (carveStepH ctr pref st rc).1.length := by
      unfold carveStepH carveStep
      by_cases hb : ctr ≤ st.2
      · rw [if_pos hb, if_pos hb]
        exact ⟨rfl, rfl, hlen⟩
      · rw [if_neg hb, if_neg hb]
        by_cases hc : (countAuxS 82 (setCell (readRef st.1 pref) rc.1 rc.2 0) 0).2 = 1
        · rw [if_pos hc, if_pos hc]
          exact ⟨hread _, rfl, by rw [List.length_set]; exact hlen⟩
        · rw [if_neg hc, if_neg hc]
          exact ⟨hread _, rfl, by rw [List.length_set]; exact hlen⟩
    obtain ⟨h1, h2, h3⟩ := hstep
    obtain ⟨ih1, ih2⟩ := ihl (carveStepH ctr pref st rc) h3
    constructor
    · rw [ih1, h1, h2]
    · rw [ih2, h1, h2]

/-- C1: for every complete, constraint-satisfying solution grid, every
difficulty and all random draws, the carved puzzle has exactly one completion,
that completion is the input solution, every non-zero cell of the puzzle
equals the corresponding solution cell, and `countSolutions` on the puzzle is
exactly 1. -/
theorem C1_createPuzzle_unique_completion (s : Grid) (d : Difficulty) (d0 : ℕ)
    (jdraws : ℕ → ℕ) (hs : validSolution s) :
    (∃! u, completes (createPuzzle s d d0 jdraws) u) ∧
    completes (createPuzzle s d d0 jdraws) s ∧
    (∀ r c, createPuzzle s d d0 jdraws r c ≠ 0 →
      createPuzzle s d d0 jdraws r c = s r c) ∧
    countSolutions (createPuzzle s d d0 jdraws) 0 = 1 := by
  obtain ⟨hagree, hcomp, huni, _, _⟩ := createPuzzle_props s hs d d0 jdraws
  refine ⟨⟨s, hcomp, huni⟩, hcomp, hagree, ?_⟩
  rw [countSolutions_eq]
  have hcons : consistentG (createPuzzle s d d0 jdraws) := subgrid_consistent hagree hs
  exact (countGood_all 82 (createPuzzle s d d0 jdraws) 0 hcons
    (by have := numEmpty_le (createPuzzle s d d0 jdraws); omega)).2.1
    ⟨s, hcomp, huni⟩ (by omega)

theorem C1_witness :
    validSolution baseSolution ∧
    ((∃! u, completes (createPuzzle baseSolution Difficulty.beginner 0 (fun _ => 0)) u) ∧
     completes (createPuzzle baseSolution Difficulty.beginner 0 (fun _ => 0)) baseSolution ∧
     (∀ r c, createPuzzle baseSolution Difficulty.beginner 0 (fun _ => 0) r c ≠ 0 →
       createPuzzle baseSolution Difficulty.beginner 0 (fun _ => 0) r c = baseSolution r c) ∧
     countSolutions (createPuzzle baseSolution Difficulty.beginner 0 (fun _ => 0)) 0 = 1) :=
  ⟨baseSolution_valid,
   C1_createPuzzle_unique_completion baseSolution Difficulty.beginner 0 (fun _ => 0)
     baseSolution_valid⟩

/-- C2: on every internally consistent starting grid, `countSolutions` counts
past the first solution and returns the counter unchanged as soon as it
exceeds the cutoff 2; its result is the exact number of completions whenever
that number is at most one, and it exceeds 1 exactly when the grid has more
than one completion. -/
theorem C2_countSolutions_exact_and_early_exit (g : Grid) (hg : consistentG g) :
    (∀ cnt, 2 < cnt → countSolutions g cnt = cnt) ∧
    ((¬∃ s, completes g s) → countSolutions g 0 = 0) ∧
    ((∃! s, completes g s) → countSolutions g 0 = 1) ∧
    (1 < countSolutions g 0 ↔ ∃ s t, completes g s ∧ completes g t ∧ s ≠ t) := by
  have hlt : numEmpty g < 82 := by have := numEmpty_le g; omega
  have HG := countGood_all 82 g
  refine ⟨?_, ?_, ?_, ?_⟩
  · intro cnt hcnt
    rw [countSolutions_eq]
    exact countAux_entry _ _ (by omega)
  · intro hno
    rw [countSolutions_eq]
    exact (HG 0 hg hlt).1 hno
  · intro huniq
    rw [countSolutions_eq]
    exact (HG 0 hg hlt).2.1 huniq (by omega)
  · rw [countSolutions_eq]
    constructor
    · intro hgt
      by_contra hcon
      by_cases hex : ∃ s, completes g s
      · obtain ⟨s, hs⟩ := hex
        have huniq : ∃! u, completes g u := by
          refine ⟨s, hs, ?_⟩
          intro t ht
          by_contra hne
          exact hcon ⟨t, s, ht, hs, hne⟩
        have := (HG 0 hg hlt).2.1 huniq (by omega)
        omega
      · have := (HG 0 hg hlt).1 hex
        omega
    · intro htwo
      exact (HG 0 hg hlt).2.2 htwo

theorem C2_witness :
    consistentG emptyGrid ∧
    ((∀ cnt, 2 < cnt → countSolutions emptyGrid cnt = cnt) ∧
     ((¬∃ s, completes emptyGrid s) → countSolutions emptyGrid 0 = 0) ∧
     ((∃! s, completes emptyGrid s) → countSolutions emptyGrid 0 = 1) ∧
     (1 < countSolutions emptyGrid 0 ↔
       ∃ s t, completes emptyGrid s ∧ completes emptyGrid t ∧ s ≠ t)) :=
  ⟨emptyGrid_consistent, C2_countSolutions_exact_and_early_exit emptyGrid emptyGrid_consistent⟩

/-- C3, counterexample to the claim as stated: with a 5 pre-placed at the
checked cell `(0,0)` itself and nowhere else, the tested value 5 appears in no
*other* cell of the row, column or block, yet `isValidPlacement` returns
`false` — the scan does compare the cell against the tested digit. -/
theorem C3_counterexample :
    isValidPlacement g5 0 0 5 = false ∧
    (∀ p : Fin 9 × Fin 9, sameUnit (0, 0) p → p ≠ ((0 : Fin 9), (0 : Fin 9)) →
      g5 p.1 p.2 ≠ 5) := by
  decide

/-- C3, amended: `isValidPlacement` returns `false` iff the value appears
*anywhere* in the same row, column or block, the cell `(row, col)` itself
included; when the cell's current content differs from the tested value (in
particular for the canonical use on a cell being filled), this coincides with
"appears elsewhere". -/
theorem C3_isValidPlacement_amended (g : Grid) (row col : Fin 9) (v : ℕ) :
    (isValidPlacement g row col v = false ↔
      ∃ p : Fin 9 × Fin 9, sameUnit (row, col) p ∧ g p.1 p.2 = v) ∧
    (g row col ≠ v →
      (isValidPlacement g row col v = false ↔
        ∃ p : Fin 9 × Fin 9, p ≠ (row, col) ∧ sameUnit (row, col) p ∧ g p.1 p.2 = v)) := by
  have hiff := isValidPlacement_iff g row col v
  constructor
  · rw [Bool.eq_false_iff, Ne, hiff]
    constructor
    · intro h
      by_contra hno
      apply h
      intro p hp hv
      exact hno ⟨p, hp, hv⟩
    · rintro ⟨p, hp, hv⟩ hall
      exact hall p hp hv
  · intro hne
    rw [Bool.eq_false_iff, Ne, hiff]
    constructor
    · intro h
      by_contra hno
      apply h
      intro p hp hv
      apply hno
      refine ⟨p, ?_, hp, hv⟩
      intro he
      rw [he] at hv
      exact hne hv
    · rintro ⟨p, _, hp, hv⟩ hall
      exact hall p hp hv

/-- C4: whatever the sequence of random draws, `generateSolution` returns a
fully filled grid in which every row, every column and every 3×3 block
contains each digit 1–9 exactly once; it never returns a partial grid. -/
theorem C4_generateSolution_complete_valid (σ : ℕ → ℕ → ℕ) :
    (∀ r c, generateSolution σ r c ≠ 0) ∧
    (∀ (r : Fin 9) (v : ℕ), 1 ≤ v → v ≤ 9 → ∃! c : Fin 9, generateSolution σ r c = v) ∧
    (∀ (c : Fin 9) (v : ℕ), 1 ≤ v → v ≤ 9 → ∃! r : Fin 9, generateSolution σ r c = v) ∧
    (∀ (b : Fin 9) (v : ℕ), 1 ≤ v → v ≤ 9 →
      ∃! p : Fin 9 × Fin 9, getBlockIndex p.1 p.2 = b.val ∧ generateSolution σ p.1 p.2 = v) := by
  have hs := generateSolution_valid σ
  exact ⟨fun r c => validSolution_nonzero hs r c,
    fun r v h1 h9 => validSolution_row_unique hs r v h1 h9,
    fun c v h1 h9 => validSolution_col_unique hs c v h1 h9,
    fun b v h1 h9 => validSolution_block_unique hs b v h1 h9⟩

/-- C5: solving a puzzle carved from a valid solution recovers exactly that
solution (never `null`). -/
theorem C5_solvePuzzle_createPuzzle_roundtrip (s : Grid) (d : Difficulty)
    (d0 : ℕ) (jdraws : ℕ → ℕ) (hs : validSolution s) :
    solvePuzzle (createPuzzle s d d0 jdraws) = some s := by
  obtain ⟨hagree, hcomp, huni, _, _⟩ := createPuzzle_props s hs d d0 jdraws
  have hcons := subgrid_consistent hagree hs
  obtain ⟨u, hu, hcu⟩ := solvePuzzle_of_completes hcons ⟨s, hcomp⟩
  rw [hu, huni u hcu]

theorem C5_witness :
    validSolution baseSolution ∧
    solvePuzzle (createPuzzle baseSolution Difficulty.expert 0 (fun _ => 0))
      = some baseSolution :=
  ⟨baseSolution_valid,
   C5_solvePuzzle_createPuzzle_roundtrip baseSolution Difficulty.expert 0 (fun _ => 0)
     baseSolution_valid⟩

/-- C6: the carved puzzle always shows at least the difficulty's minimum of
visible cells, and whenever the removal target is actually reached (the
shuffled coordinate list was not exhausted first) the count is also at most
the configured maximum. -/
theorem C6_createPuzzle_visible_range (s : Grid) (d : Difficulty) (d0 : ℕ)
    (jdraws : ℕ → ℕ) (hs : validSolution s) :
    (DIFFICULTY_CONFIGS d).visibleCells.min ≤ nonZeroCount (createPuzzle s d d0 jdraws) ∧
    ((carve s (randomInRange (DIFFICULTY_CONFIGS d).visibleCells.min
        (DIFFICULTY_CONFIGS d).visibleCells.max d0) (shuffleArray allCells jdraws)).2
        = 81 - randomInRange (DIFFICULTY_CONFIGS d).visibleCells.min
            (DIFFICULTY_CONFIGS d).visibleCells.max d0 →
      nonZeroCount (createPuzzle s d d0 jdraws) ≤ (DIFFICULTY_CONFIGS d).visibleCells.max) := by
  obtain ⟨_, _, _, hcount, hrem⟩ := createPuzzle_props s hs d d0 jdraws
  have ht := randomInRange_mem (DIFFICULTY_CONFIGS d).visibleCells.min
    (DIFFICULTY_CONFIGS d).visibleCells.max d0 (difficulty_min_le_max d)
  have hmax := difficulty_max_le d
  constructor
  · omega
  · intro he
    omega

theorem C6_witness :
    validSolution baseSolution ∧
    ((DIFFICULTY_CONFIGS Difficulty.hard).visibleCells.min
        ≤ nonZeroCount (createPuzzle baseSolution Difficulty.hard 0 (fun _ => 0)) ∧
     ((carve baseSolution (randomInRange (DIFFICULTY_CONFIGS Difficulty.hard).visibleCells.min
         (DIFFICULTY_CONFIGS Difficulty.hard).visibleCells.max 0)
         (shuffleArray allCells (fun _ => 0))).2
         = 81 - randomInRange (DIFFICULTY_CONFIGS Difficulty.hard).visibleCells.min
             (DIFFICULTY_CONFIGS Difficulty.hard).visibleCells.max 0 →
       nonZeroCount (createPuzzle baseSolution Difficulty.hard 0 (fun _ => 0))
         ≤ (DIFFICULTY_CONFIGS Difficulty.hard).visibleCells.max)) :=
  ⟨baseSolution_valid,
   C6_createPuzzle_visible_range baseSolution Difficulty.hard 0 (fun _ => 0)
     baseSolution_valid⟩

/-- C8: neither `createPuzzle` nor `solvePuzzle` mutates any array the caller
already holds — every pre-existing reference of the store reads the same grid
after the call as before; all mutation targets the freshly allocated private
copy. -/
theorem C8_frame_caller_grids_unchanged (store : List Grid) (sref pzref : ℕ)
    (d : Difficulty) (d0 : ℕ) (jdraws : ℕ → ℕ) (i : ℕ) (hi : i < store.length) :
    (createPuzzleH store sref d d0 jdraws).1[i]? = store[i]? ∧
    (solvePuzzleH store pzref).1[i]? = store[i]? :=
  ⟨createPuzzleH_frame store sref d d0 jdraws i hi, solvePuzzleH_frame store pzref i hi⟩

theorem C8_witness :
    0 < [emptyGrid].length ∧
    ((createPuzzleH [emptyGrid] 0 Difficulty.beginner 0 (fun _ => 0)).1[0]? = [emptyGrid][0]? ∧
     (solvePuzzleH [emptyGrid] 0).1[0]? = [emptyGrid][0]?) :=
  ⟨by decide,
   C8_frame_caller_grids_unchanged [emptyGrid] 0 0 Difficulty.beginner 0 (fun _ => 0) 0
     (by decide)⟩

/-- C9: `countSolutions` restores every cell it fills before returning — the
grid buffer at return (first component of `countAuxS`) is cell-for-cell the
grid at the moment of the call, at every recursion depth and incoming counter;
the carver (`carveStep`) relies on this when it keeps counting on its working
puzzle in place. -/
theorem C9_countSolutions_restores_grid (fuel : ℕ) (g : Grid) (cnt : ℕ) :
    (countAuxS fuel g cnt).1 = g := by
  rw [countAuxS_eq]

/-- C10: after any `addRecord` call the store keeps at most 3 records of each
difficulty, and `getRecordsByDifficulty` returns only records of the requested
difficulty, sorted descending by score (every adjacent pair non-increasing). -/
theorem C10_records_capped_sorted (records : List GameRecord) (entry : GameRecord)
    (newId : String) (now : ℕ) (d : Difficulty) :
    ((addRecord records entry newId now).filter
       fun r => decide (r.difficulty = d)).length ≤ MAX_RECORDS_PER_DIFFICULTY ∧
    (∀ r ∈ getRecordsByDifficulty records d, r.difficulty = d) ∧
    List.Pairwise (fun a b : GameRecord => b.score ≤ a.score)
      (getRecordsByDifficulty records d) :=
  ⟨addRecord_le_three records entry newId now d, getRecords_difficulty records d,
   getRecords_sorted records d⟩
